import Mathlib

/-!
# Izmno/imageresize: a shallow embedding of `main.go`

The HTTP image resizer is embedded as pure Lean functions.

* A Go `string` is its sequence of bytes (`GoString`); string literals of the
  source are written `str "..."` (their UTF-8 encoding).
* The standard-library functions the handler calls (`path.Clean`, `path.Join`,
  `filepath.Ext`, `http.Error`, `bytes.Reader.WriteTo`) are embedded from the Go
  standard library, statement by statement.
* The file system, the ImageMagick wand and the response writer are external:
  they are parameters (`Env`, `ResponseWriter`) whose answers the handler reads.
* `float64` arithmetic is IEEE-754 binary64, round to nearest even, on the
  non-negative values the handler computes with.
* The addition of `int` values wraps at 64 bits (`wrapInt`).
-/

namespace Imageresize

/-! ## Go strings -/

/-- One byte of a Go string. -/
abbrev Byte := Nat

/-- Go `string`: an immutable sequence of bytes. -/
abbrev GoString := List Byte

/-- UTF-8 encoding of one rune (`utf8.AppendRune`): surrogates and values above
U+10FFFF encode as U+FFFD. -/
def utf8EncodeRune (r : Nat) : List Byte :=
  if r < 0x80 then [r]
  else if r < 0x800 then [0xC0 + r / 64, 0x80 + r % 64]
  else if 0xD800 ≤ r ∧ r < 0xE000 then [0xEF, 0xBF, 0xBD]
  else if r < 0x10000 then [0xE0 + r / 4096, 0x80 + r / 64 % 64, 0x80 + r % 64]
  else if r < 0x110000 then
    [0xF0 + r / 262144, 0x80 + r / 4096 % 64, 0x80 + r / 64 % 64, 0x80 + r % 64]
  else [0xEF, 0xBF, 0xBD]

/-- The bytes of a string literal of the source. -/
def str (s : String) : GoString := s.toList.flatMap (fun c => utf8EncodeRune c.toNat)

/-- The byte `/`. -/
abbrev slash : Byte := 47

/-- The byte `.`. -/
abbrev dot : Byte := 46

/-! ## `path.Clean`, `path.Join`, `filepath.Ext` (Go standard library) -/

/-- The `lazybuf` of package `path`: a lazily constructed path buffer. It reads
from `s` until the output diverges from it, then writes to `buf`. -/
structure lazybuf where
  s : GoString
  buf : Option (List Byte)
  w : Nat
deriving DecidableEq, Repr

/-- Method `lazybuf.index`. -/
def lazybuf.index (b : lazybuf) (i : Nat) : Byte :=
  match b.buf with
  | some buf => buf.getD i 0
  | none => b.s.getD i 0

/-- Method `lazybuf.append`: `buf` is allocated with `len(s)` bytes on the first
byte that differs from `s`, and `s[:w]` is copied into it. -/
def lazybuf.append (b : lazybuf) (c : Byte) : lazybuf :=
  match b.buf with
  | none =>
    if b.w < b.s.length ∧ b.s.getD b.w 0 = c then { b with w := b.w + 1 }
    else
      { b with
        buf := some ((b.s.take b.w ++ List.replicate (b.s.length - b.w) 0).set b.w c)
        w := b.w + 1 }
  | some buf => { b with buf := some (buf.set b.w c), w := b.w + 1 }

/-- Method `lazybuf.string`. -/
def lazybuf.string (b : lazybuf) : GoString :=
  match b.buf with
  | none => b.s.take b.w
  | some buf => buf.take b.w

/-- The inner loop `for out.w > dotdot && out.index(out.w) != '/' { out.w-- }`,
by recursion on `out.w`. -/
def backtrackLoop (dotdot : Nat) (out : lazybuf) : Nat → lazybuf
  | 0 => { out with w := 0 }
  | w + 1 =>
    if w + 1 > dotdot ∧ out.index (w + 1) ≠ slash then backtrackLoop dotdot out w
    else { out with w := w + 1 }

/-- The `..` backtrack: `out.w--` followed by the inner loop. -/
def backtrack (dotdot : Nat) (out : lazybuf) : lazybuf :=
  backtrackLoop dotdot out (out.w - 1)

/-- The copy loop `for ; r < n && path[r] != '/'; r++ { out.append(path[r]) }`;
returns the buffer and the unread rest of the path. -/
def copyElem (out : lazybuf) : GoString → lazybuf × GoString
  | [] => (out, [])
  | c :: t => if c = slash then (out, c :: t) else copyElem (out.append c) t

/-- The main loop `for r < n` of `path.Clean`. The unread part `path[r:]` is
`rest`; each iteration reads at least one byte, so `fuel = len(path)` iterations
suffice. -/
def cleanLoop (rooted : Bool) : Nat → GoString → lazybuf → Nat → lazybuf
  | 0, _, out, _ => out
  | _ + 1, [], out, _ => out
  | fuel + 1, c :: t, out, dotdot =>
    if c = slash then
      -- empty path element
      cleanLoop rooted fuel t out dotdot
    else if c = dot ∧ (t = [] ∨ t.head? = some slash) then
      -- . element
      cleanLoop rooted fuel t out dotdot
    else if c = dot ∧ t.head? = some dot ∧ (t.tail = [] ∨ t.tail.head? = some slash) then
      -- .. element: remove to last /
      if out.w > dotdot then
        -- can backtrack
        cleanLoop rooted fuel t.tail (backtrack dotdot out) dotdot
      else if !rooted then
        -- cannot backtrack, but not rooted, so append .. element.
        let out1 := if out.w > 0 then out.append slash else out
        let out2 := (out1.append dot).append dot
        cleanLoop rooted fuel t.tail out2 out2.w
      else
        cleanLoop rooted fuel t.tail out dotdot
    else
      -- real path element. add slash if needed
      let out1 :=
        if (rooted ∧ out.w ≠ 1) ∨ (!rooted ∧ out.w ≠ 0) then out.append slash else out
      -- copy element
      let p := copyElem out1 (c :: t)
      cleanLoop rooted fuel p.2 p.1 dotdot

/-- Function `path.Clean`. -/
def Clean (path : GoString) : GoString :=
  if path = [] then str "."
  else
    let rooted : Bool := path.head? = some slash
    let out : lazybuf := { s := path, buf := none, w := 0 }
    let out := if rooted then out.append slash else out
    let r := if rooted then 1 else 0
    let out := cleanLoop rooted path.length (path.drop r) out r
    -- Turn empty string into "."
    if out.w = 0 then str "." else out.string

/-- The element loop of `path.Join`: non-empty elements separated by `/`. -/
def joinElems : List GoString → GoString → GoString
  | [], buf => buf
  | e :: es, buf =>
    if buf.length > 0 ∨ e ≠ [] then
      joinElems es ((if buf.length > 0 then buf ++ [slash] else buf) ++ e)
    else joinElems es buf

/-- Function `path.Join`. -/
def Join (elem : List GoString) : GoString :=
  if (elem.map List.length).sum = 0 then []
  else Clean (joinElems elem [])

/-- The loop of `filepath.Ext` (Unix), scanning `path` from its last byte:
`rev` is the unscanned part reversed, `acc` the bytes already scanned. -/
def extLoop : List Byte → GoString → GoString
  | [], _ => []
  | c :: rev, acc =>
    if c = slash then []
    else if c = dot then c :: acc
    else extLoop rev (c :: acc)

/-- Function `filepath.Ext`: the suffix beginning at the final dot in the final
element of `path`; empty if there is no dot. -/
def Ext (path : GoString) : GoString := extLoop path.reverse []

/-! ## `float64` arithmetic -/

/-- A `float64` value as the handler meets it: a non-negative finite value
`m * 2^e`, or a non-finite one (`+Inf`, `NaN`). Every value the handler computes
is non-negative; exponent limits are not modelled (for `uint` operands the values
lie between `2^-64` and `2^128`, inside the normal range of binary64). -/
inductive Float64
  | finite (m : Nat) (e : Int)
  | nonFinite
deriving DecidableEq, Repr

/-- Numerator and denominator of `num / den * 2^k`. -/
def scalePow2 (num den : Nat) (k : Int) : Nat × Nat :=
  if 0 ≤ k then (num * 2 ^ k.toNat, den) else (num, den * 2 ^ (-k).toNat)

/-- Nearest integer to `n / d`, ties to even. -/
def roundHalfEven (n d : Nat) : Nat :=
  let q := n / d
  let r := n % d
  if 2 * r > d ∨ (2 * r = d ∧ q % 2 = 1) then q + 1 else q

/-- Halving loop of `bitLog2`. -/
def bitLog2Loop : Nat → Nat → Nat
  | 0, _ => 0
  | fuel + 1, n => if n < 2 then 0 else bitLog2Loop fuel (n / 2) + 1

/-- Position of the highest set bit of `n` (`bits.Len(n) - 1`), 0 for `n = 0`. -/
def bitLog2 (n : Nat) : Nat := bitLog2Loop n n

/-- Exponent `e` with `2^e ≤ num / den < 2^(e+1)`, for `num, den > 0`. -/
def floorLog2 (num den : Nat) : Int :=
  let e0 : Int := (bitLog2 num : Int) - (bitLog2 den : Int)
  let p := scalePow2 num den (-e0)
  if p.1 ≥ p.2 then e0 else e0 - 1

/-- Rounding of the exact positive quotient `num / den` to binary64 (53
significant bits, round to nearest, ties to even). -/
def roundToFloat64 (num den : Nat) : Float64 :=
  let e := floorLog2 num den
  let p := scalePow2 num den (52 - e)
  Float64.finite (roundHalfEven p.1 p.2) (e - 52)

/-- Conversion `float64(x)` of a `uint`. -/
def Float64.ofUint (x : Nat) : Float64 :=
  if x = 0 then Float64.finite 0 0 else roundToFloat64 x 1

/-- Operator `/` of `float64`, on non-negative operands: `x / 0` is `+Inf` or
`NaN`. The handler divides conversions of `uint` values, which are finite; a
quotient with an operand that is not finite is left non-finite. -/
def Float64.div : Float64 → Float64 → Float64
  | Float64.finite a ea, Float64.finite b eb =>
    if b = 0 then Float64.nonFinite
    else if a = 0 then Float64.finite 0 0
    else
      match roundToFloat64 a b with
      | Float64.finite m e => Float64.finite m (e + ea - eb)
      | Float64.nonFinite => Float64.nonFinite
  | _, _ => Float64.nonFinite

/-- Operator `*` of `float64`, on non-negative operands. -/
def Float64.mul : Float64 → Float64 → Float64
  | Float64.finite a ea, Float64.finite b eb =>
    if a * b = 0 then Float64.finite 0 0
    else
      match roundToFloat64 (a * b) 1 with
      | Float64.finite m e => Float64.finite m (e + ea + eb)
      | Float64.nonFinite => Float64.nonFinite
  | _, _ => Float64.nonFinite

/-- Conversion `uint(f)`: the fraction is discarded. The result is `none` when
the value cannot be represented by `uint` (64 bits); Go leaves it
implementation-dependent. -/
def Float64.toUint : Float64 → Option Nat
  | Float64.finite m e =>
    let v := if 0 ≤ e then m * 2 ^ e.toNat else m / 2 ^ (-e).toNat
    if v < 2 ^ 64 then some v else none
  | Float64.nonFinite => none

/-! ## Errors, the file system and the ImageMagick wand -/

/-- The error type `*imagick.MagickWandException`, the only error type the wand
returns. -/
structure MagickWandException where
  kind : Nat
  description : GoString
deriving DecidableEq, Repr

/-- Error values the handler meets. -/
inductive GoError
  /-- The sentinel `fs.ErrNotExist`. -/
  | ErrNotExist
  /-- A `*fs.PathError` of `os.Stat`, wrapping the `syscall.Errno` value `errno`. -/
  | PathError (errno : Nat)
  /-- An error of the wand. -/
  | Magick (e : MagickWandException)
  /-- Any other error (of a response writer, `io.ErrShortWrite`). -/
  | Other (id : Nat)
deriving DecidableEq, Repr

/-- The value `syscall.ENOENT`. -/
def ENOENT : Nat := 2

/-- The test `errors.Is(err, fs.ErrNotExist)`: the sentinel itself, or a path
error whose `Errno` is `ENOENT` (`Errno.Is`). A `MagickWandException` has neither
`Is` nor `Unwrap`. -/
def GoError.isNotExist : GoError → Bool
  | GoError.ErrNotExist => true
  | GoError.PathError errno => errno = ENOENT
  | GoError.Magick _ => false
  | GoError.Other _ => false

/-- The sentinel `ErrNotExist = fs.ErrNotExist` of `main.go`. -/
def ErrNotExist : GoError := GoError.ErrNotExist

/-- Result of `os.Stat`: an error, or a `FileInfo` of which `IsDir` is read. -/
inductive StatResult
  | err (e : GoError)
  | info (isDir : Bool)
deriving DecidableEq, Repr

/-- The world outside the handler: what the file system and the wand answer.
The wand holds the image read from `f`, so its answers are indexed by `f`. -/
structure Env where
  /-- Function `os.Stat(f)`. -/
  Stat : GoString → StatResult
  /-- Method `mw.ReadImage(f)`; `none` is a nil error. -/
  ReadImage : GoString → Option MagickWandException
  /-- Method `mw.GetImageWidth()` after reading `f`. -/
  GetImageWidth : GoString → Nat
  /-- Method `mw.GetImageHeight()` after reading `f`. -/
  GetImageHeight : GoString → Nat
  /-- Method `mw.ResizeImage(cols, rows, FILTER_LANCZOS)` on the image of `f`. -/
  ResizeImage : GoString → Nat → Nat → Option MagickWandException
  /-- Method `mw.GetImageBlob()` on the image of `f` resized to `cols`, `rows`. -/
  GetImageBlob : GoString → Nat → Nat → Except MagickWandException (List Byte)
  /-- What `uint(x)` yields for a `float64` outside the range of `uint`
  (implementation-dependent in Go). -/
  uintOutOfRange : Nat

/-- Calls the handler makes on the file system and the wand, in order. -/
inductive Effect
  | NewMagickWand
  | Destroy
  | Stat (f : GoString)
  | ReadImage (f : GoString)
  | GetImageWidth
  | GetImageHeight
  | ResizeImage (cols rows : Nat)
  | GetImageBlob
deriving DecidableEq, Repr

/-! ## Response writers -/

/-- The header map `http.Header` (keys in canonical form, one value per key as
`Set` leaves it). -/
abbrev Header := List (GoString × GoString)

/-- Method `Header.Set`. -/
def Header.Set (h : Header) (key value : GoString) : Header :=
  (key, value) :: h.filter (fun kv => kv.1 ≠ key)

/-- Method `Header.Get`; `none` when the key is absent. -/
def Header.Get (h : Header) (key : GoString) : Option GoString :=
  (h.find? (fun kv => kv.1 = key)).map Prod.snd

/-- The interface `http.ResponseWriter` over a writer state `σ`. `HeaderSet` is
`w.Header().Set(key, value)`: the map `Header()` returns is the writer's own. -/
structure ResponseWriter (σ : Type) where
  Header : σ → Header
  HeaderSet : σ → GoString → GoString → σ
  Write : σ → List Byte → σ × Int × Option GoError
  WriteHeader : σ → Int → σ

/-- Status code constants of `net/http`. -/
def StatusOK : Int := 200
/-- Status code 404. -/
def StatusNotFound : Int := 404
/-- Status code 405. -/
def StatusMethodNotAllowed : Int := 405
/-- Status code 415. -/
def StatusUnsupportedMediaType : Int := 415
/-- Status code 500. -/
def StatusInternalServerError : Int := 500

/-- Function `http.Error`: sets the two headers, writes the status line and
prints the message with `fmt.Fprintln`. (Recent versions of Go first delete the
header `Content-Length`, which this program never sets.) -/
def httpError {σ : Type} (W : ResponseWriter σ) (w : σ) (error : GoString) (code : Int) : σ :=
  let w := W.HeaderSet w (str "Content-Type") (str "text/plain; charset=utf-8")
  let w := W.HeaderSet w (str "X-Content-Type-Options") (str "nosniff")
  let w := W.WriteHeader w code
  (W.Write w (error ++ str "\n")).1

/-- Function `http.NotFound`. -/
def httpNotFound {σ : Type} (W : ResponseWriter σ) (w : σ) : σ :=
  httpError W w (str "404 page not found") StatusNotFound

/-- Result of `io.Copy(w, bytes.NewReader(blob))`, that is of
`bytes.Reader.WriteTo`: nothing is written for an empty blob; otherwise one
`Write`, which panics on a count above `len(blob)` and reports
`io.ErrShortWrite` (`Other 0`) on a short count without error. -/
structure CopyResult (σ : Type) where
  w : σ
  err : Option GoError
  panicked : Bool

/-- Function `io.Copy(w, bytes.NewReader(blob))`. -/
def ioCopy {σ : Type} (W : ResponseWriter σ) (w : σ) (blob : List Byte) : CopyResult σ :=
  if blob.length = 0 then { w := w, err := none, panicked := false }
  else
    let r := W.Write w blob
    if r.2.1 > blob.length then { w := r.1, err := r.2.2, panicked := true }
    else if r.2.1 ≠ blob.length ∧ r.2.2 = none then
      { w := r.1, err := some (GoError.Other 0), panicked := false }
    else { w := r.1, err := r.2.2, panicked := false }

/-! ## `main.go` -/

/-- Default width of resized image. -/
def Width : Nat := 200

/-- Default cache TTL in seconds. -/
def CacheTTL : Nat := 86400

/-- The struct `Resizer`; `width` and `cacheTTL` are `uint`. -/
structure Resizer where
  width : Nat
  cacheTTL : Nat
  mediaPath : GoString
deriving DecidableEq, Repr

/-- The resizer `Run` constructs for the media directory `mediaPath`. -/
def Resizer.default (mediaPath : GoString) : Resizer :=
  { width := Width, cacheTTL := CacheTTL, mediaPath := mediaPath }

/-- The fields of `*http.Request` the handler reads: `Method` and `URL.Path`. -/
structure Request where
  Method : GoString
  Path : GoString
deriving DecidableEq, Repr

/-- The conversion `string(x)` of an unsigned integer: the UTF-8 representation
of the code point `x`, or of U+FFFD when `x` is not a valid code point. -/
def stringOfUint (x : Nat) : GoString := utf8EncodeRune x

/-- The slice expression `s[1:]`; `none` is the run-time panic
`slice bounds out of range [1:0]`. -/
def sliceFrom1 (s : GoString) : Option GoString :=
  if 1 ≤ s.length then some (s.drop 1) else none

/-- The allow-list of `isImageTypeAllowed`. -/
def allowed : List GoString := [str "jpg", str "jpeg", str "png", str "gif", str "webp"]

/-- The loop `for _, a := range allowed { if a == ext { return true } }`. -/
def isImageTypeAllowedLoop (ext : GoString) : List GoString → Bool
  | [] => false
  | a :: rest => if a = ext then true else isImageTypeAllowedLoop ext rest

/-- Method `Resizer.isImageTypeAllowed`. -/
def isImageTypeAllowed (ext : GoString) : Bool := isImageTypeAllowedLoop ext allowed

/-- The map `mimes` of `getMime`. -/
def mimes : List (GoString × GoString) :=
  [(str "jpg", str "image/jpeg"),
   (str "jpeg", str "image/jpeg"),
   (str "png", str "image/png"),
   (str "gif", str "image/gif"),
   (str "webp", str "image/webp")]

/-- Method `Resizer.getMime`. -/
def getMime (extension : GoString) : GoString :=
  match mimes.lookup extension with
  | none => str "application/octet-stream"
  | some m => m

/-- Function `readImage`: the error it returns (`none` is nil) and the calls it
makes. -/
def readImage (env : Env) (f : GoString) : Option GoError × List Effect :=
  match env.Stat f with
  | StatResult.err err =>
    if err.isNotExist then (some ErrNotExist, [Effect.Stat f])
    else (some err, [Effect.Stat f])
  | StatResult.info isDir =>
    if isDir then (some ErrNotExist, [Effect.Stat f])
    else ((env.ReadImage f).map GoError.Magick, [Effect.Stat f, Effect.ReadImage f])

/-- The expression
`uint(float64(srcHeight) * (float64(dstWidth) / float64(srcWidth)))`. -/
def dstHeight (env : Env) (srcWidth srcHeight dstWidth : Nat) : Nat :=
  match ((Float64.ofUint srcHeight).mul
      ((Float64.ofUint dstWidth).div (Float64.ofUint srcWidth))).toUint with
  | some v => v
  | none => env.uintOutOfRange

/-- The local `srcFile` of `Resize`: `path.Join(rsz.mediaPath, r.URL.Path)`. -/
def srcFile (rsz : Resizer) (r : Request) : GoString := Join [rsz.mediaPath, r.Path]

/-- What a call of a handler leaves: the response writer, the calls made on the
file system and the wand, and whether the handler panicked instead of
returning. -/
structure Result (σ : Type) where
  w : σ
  calls : List Effect
  panicked : Bool

/-- Method `Resizer.Resize`. The deferred `mw.Destroy()` is the last call on
every path. -/
def Resize {σ : Type} (env : Env) (W : ResponseWriter σ) (rsz : Resizer) (w : σ)
    (r : Request) : Result σ :=
  if r.Method ≠ str "GET" then
    { w := httpError W w (str "Method not allowed") StatusMethodNotAllowed
      calls := [Effect.NewMagickWand, Effect.Destroy]
      panicked := false }
  else
    let srcFile := srcFile rsz r
    match sliceFrom1 (Ext srcFile) with
    | none =>
      { w := w, calls := [Effect.NewMagickWand, Effect.Destroy], panicked := true }
    | some imgType =>
      if !isImageTypeAllowed imgType then
        { w := httpError W w (str "Unsupported media type") StatusUnsupportedMediaType
          calls := [Effect.NewMagickWand, Effect.Destroy]
          panicked := false }
      else
        let rd := readImage env srcFile
        match rd.1 with
        | some err =>
          { w :=
              if err.isNotExist then httpNotFound W w
              else httpError W w (str "Internal server error") StatusInternalServerError
            calls := Effect.NewMagickWand :: rd.2 ++ [Effect.Destroy]
            panicked := false }
        | none =>
          let srcWidth := env.GetImageWidth srcFile
          let srcHeight := env.GetImageHeight srcFile
          let dstWidth := rsz.width
          let dstHeight := dstHeight env srcWidth srcHeight dstWidth
          let calls := Effect.NewMagickWand :: rd.2 ++
            [Effect.GetImageWidth, Effect.GetImageHeight,
             Effect.ResizeImage dstWidth dstHeight]
          match env.ResizeImage srcFile dstWidth dstHeight with
          | some _ =>
            { w := httpError W w (str "Internal server error") StatusInternalServerError
              calls := calls ++ [Effect.Destroy]
              panicked := false }
          | none =>
            let w := W.HeaderSet w (str "Content-Type") (getMime imgType)
            let w := W.HeaderSet w (str "Cache-Control")
              (str "max-age=" ++ stringOfUint rsz.cacheTTL)
            match env.GetImageBlob srcFile dstWidth dstHeight with
            | Except.error _ =>
              { w := httpError W w (str "Internal server error") StatusInternalServerError
                calls := calls ++ [Effect.GetImageBlob, Effect.Destroy]
                panicked := false }
            | Except.ok blob =>
              let c := ioCopy W w blob
              if c.panicked then
                { w := c.w
                  calls := calls ++ [Effect.GetImageBlob, Effect.Destroy]
                  panicked := true }
              else
                match c.err with
                | some _ =>
                  { w := httpError W c.w (str "Internal server error")
                      StatusInternalServerError
                    calls := calls ++ [Effect.GetImageBlob, Effect.Destroy]
                    panicked := false }
                | none =>
                  { w := c.w
                    calls := calls ++ [Effect.GetImageBlob, Effect.Destroy]
                    panicked := false }

/-- The value of type `int` (64 bits, two's complement) that the exact result
`x` of an addition wraps to. -/
def wrapInt (x : Int) : Int := (x + 2 ^ 63) % 2 ^ 64 - 2 ^ 63

/-- The struct `responseAnalysis` over an underlying writer of state `σ`; the
fields `n` and `status` are of type `int`. -/
structure responseAnalysis (σ : Type) where
  n : Int
  status : Int
  w : σ

/-- Method `responseAnalysis.Status`. -/
def responseAnalysis.Status {σ : Type} (ra : responseAnalysis σ) : Int :=
  if ra.status = 0 then StatusOK else ra.status

/-- Method `responseAnalysis.Header`, read. -/
def responseAnalysis.Header {σ : Type} (W : ResponseWriter σ) (ra : responseAnalysis σ) :
    Header :=
  W.Header ra.w

/-- A `Set` on the map that `responseAnalysis.Header` returns, which is the
underlying writer's map. -/
def responseAnalysis.HeaderSet {σ : Type} (W : ResponseWriter σ) (ra : responseAnalysis σ)
    (key value : GoString) : responseAnalysis σ :=
  { ra with w := W.HeaderSet ra.w key value }

/-- Method `responseAnalysis.Write`; the addition `ra.n += n` is one of `int`
and wraps. -/
def responseAnalysis.Write {σ : Type} (W : ResponseWriter σ) (ra : responseAnalysis σ)
    (b : List Byte) : responseAnalysis σ × Int × Option GoError :=
  let r := W.Write ra.w b
  ({ ra with n := wrapInt (ra.n + r.2.1), w := r.1 }, r.2.1, r.2.2)

/-- Method `responseAnalysis.WriteHeader`. -/
def responseAnalysis.WriteHeader {σ : Type} (W : ResponseWriter σ) (ra : responseAnalysis σ)
    (statusCode : Int) : responseAnalysis σ :=
  { ra with status := statusCode, w := W.WriteHeader ra.w statusCode }

/-- Function `AnalyzeResponse`; the fields `n` and `status` get their zero
value. -/
def AnalyzeResponse {σ : Type} (w : σ) : responseAnalysis σ :=
  { n := 0, status := 0, w := w }

/-- The type `*responseAnalysis` as an `http.ResponseWriter`. -/
def responseAnalysis.writer {σ : Type} (W : ResponseWriter σ) :
    ResponseWriter (responseAnalysis σ) where
  Header := responseAnalysis.Header W
  HeaderSet := responseAnalysis.HeaderSet W
  Write := responseAnalysis.Write W
  WriteHeader := responseAnalysis.WriteHeader W

/-- The line `ServeHTTP` logs, without the elapsed time: the level is `Error`
when `isError`, else `Info`. -/
structure LogLine where
  isError : Bool
  status : Int
  method : GoString
  path : GoString
  kb : Int
deriving DecidableEq, Repr

/-- Method `Resizer.ServeHTTP`: the result of `Resize` on the observer, and the
line logged when `Resize` returns. -/
def ServeHTTP {σ : Type} (env : Env) (W : ResponseWriter σ) (rsz : Resizer) (w : σ)
    (r : Request) : Result (responseAnalysis σ) × Option LogLine :=
  let r := { r with Path := Clean r.Path }
  let ra := AnalyzeResponse w
  let res := Resize env (responseAnalysis.writer W) rsz ra r
  if res.panicked then (res, none)
  else
    (res, some
      { isError := decide (res.w.Status ≥ 400)
        status := res.w.Status
        method := r.Method
        path := r.Path
        kb := Int.tdiv res.w.n 1024 })

/-! ## A reference response writer -/

/-- A response as `net/http` sends it: the header map, the status line once
written together with the headers sent with it, and the body. -/
structure Recorder where
  header : Header
  sent : Option (Int × Header)
  body : List Byte
deriving DecidableEq, Repr

/-- A fresh response: nothing set, nothing written. -/
def Recorder.new : Recorder := { header := [], sent := none, body := [] }

/-- Method `WriteHeader` of the recorder: the first call fixes the status and the
headers, later calls are ignored. This is what `net/http` does for a status code
from 100 to 999, the only ones an `http.ResponseWriter` admits (`net/http` panics
on any other code) and the only ones the handler passes. -/
def Recorder.WriteHeader (rec : Recorder) (code : Int) : Recorder :=
  match rec.sent with
  | some _ => rec
  | none => { rec with sent := some (code, rec.header) }

/-- Method `Write` of the recorder: an implicit `WriteHeader(200)` when no status
was written, then the bytes; every byte is accepted. -/
def Recorder.Write (rec : Recorder) (b : List Byte) : Recorder × Int × Option GoError :=
  let rec1 := rec.WriteHeader StatusOK
  ({ rec1 with body := rec1.body ++ b }, (b.length : Int), none)

/-- The recorder as an `http.ResponseWriter`. -/
def Recorder.writer : ResponseWriter Recorder where
  Header := fun rec => rec.header
  HeaderSet := fun rec key value => { rec with header := Header.Set rec.header key value }
  Write := Recorder.Write
  WriteHeader := Recorder.WriteHeader

/-- The status of the response once the handler has returned: the one written,
or 200 when the handler wrote nothing. -/
def Recorder.status (rec : Recorder) : Int :=
  match rec.sent with
  | some s => s.1
  | none => StatusOK

/-- The headers of the response once the handler has returned. -/
def Recorder.sentHeader (rec : Recorder) : Header :=
  match rec.sent with
  | some s => s.2
  | none => rec.header

/-- The response of `Resize` to `r` on a fresh response. -/
def respond (env : Env) (rsz : Resizer) (r : Request) : Result Recorder :=
  Resize env Recorder.writer rsz Recorder.new r

/-- A writer that accepts at most `limit` bytes per `Write` and reports an error
(`Other 1`) when it was given more; its state is the bytes accepted. -/
def limitedWriter (limit : Nat) : ResponseWriter (List Byte) where
  Header := fun _ => []
  HeaderSet := fun w _ _ => w
  Write := fun w b =>
    (w ++ b.take limit, ((b.take limit).length : Int),
      if b.length > limit then some (GoError.Other 1) else none)
  WriteHeader := fun w _ => w

/-! ## Calls on the observer -/

/-- A call on the `Write`/`WriteHeader` methods of a response writer. -/
inductive Call
  | Write (b : List Byte)
  | WriteHeader (statusCode : Int)
deriving DecidableEq, Repr

/-- The calls `calls` made in order on the observer `ra`: the observer they
leave and the `(count, error)` pairs its `Write` calls returned. -/
def runObserver {σ : Type} (W : ResponseWriter σ) :
    List Call → responseAnalysis σ → responseAnalysis σ × List (Int × Option GoError)
  | [], ra => (ra, [])
  | Call.Write b :: calls, ra =>
    let r := ra.Write W b
    let rest := runObserver W calls r.1
    (rest.1, r.2 :: rest.2)
  | Call.WriteHeader statusCode :: calls, ra => runObserver W calls (ra.WriteHeader W statusCode)

/-- The same calls made directly on a writer `w`: the writer they leave and the
`(count, error)` pairs its `Write` calls returned. -/
def runWriter {σ : Type} (W : ResponseWriter σ) :
    List Call → σ → σ × List (Int × Option GoError)
  | [], w => (w, [])
  | Call.Write b :: calls, w =>
    let r := W.Write w b
    let rest := runWriter W calls r.1
    (rest.1, r.2 :: rest.2)
  | Call.WriteHeader statusCode :: calls, w => runWriter W calls (W.WriteHeader w statusCode)

/-- The status code of the most recent `WriteHeader` call, if there is one. -/
def lastWriteHeader : List Call → Option Int
  | [] => none
  | Call.Write _ :: calls => lastWriteHeader calls
  | Call.WriteHeader statusCode :: calls =>
    match lastWriteHeader calls with
    | some c => some c
    | none => some statusCode

/-- The running totals `n + c₁`, `n + c₁ + c₂`, ... of the counts `c₁, c₂, ...`
all lie in the range of `int`: the counter does not overflow. -/
def totalsFit : Int → List Int → Bool
  | _, [] => true
  | n, c :: cs => decide (-2 ^ 63 ≤ n + c ∧ n + c < 2 ^ 63) && totalsFit (n + c) cs

/-! ## Notions of the specification -/

/-- The specification's "lower-cased" extension: ASCII letters `A`..`Z` mapped to
`a`..`z`. -/
def asciiLower (s : GoString) : GoString :=
  s.map (fun c => if 65 ≤ c ∧ c ≤ 90 then c + 32 else c)

/-- The specification's `round(h * T / w)`: the integer nearest to the exact
quotient (halves upwards). -/
def nearestHeight (h T w : Nat) : Nat := (2 * h * T + w) / (2 * w)

/-- Digit loop of `decimal`. -/
def decimalLoop : Nat → Nat → List Byte → List Byte
  | 0, _, acc => acc
  | fuel + 1, n, acc =>
    if n < 10 then (48 + n) :: acc else decimalLoop fuel (n / 10) ((48 + n % 10) :: acc)

/-- The specification's `max-age=<ttl>`: the decimal representation of `n`
(what `strconv.FormatUint(n, 10)` yields). -/
def decimal (n : Nat) : GoString := decimalLoop (n + 1) n []

/-! ## What a `float64` denotes -/

/-- The rational number a finite `float64` stands for (0 for a non-finite
one). -/
def Float64.val : Float64 → ℚ
  | Float64.finite m e => (m : ℚ) * (2 : ℚ) ^ e
  | Float64.nonFinite => 0

/-! ## What `path.Clean` computes

The definitions below are not code of the program: they describe the result of
`Clean` in terms of the `/`-separated elements of the path, and the theorems on
`Clean` prove that the loop above computes them. -/

/-- The loop `cleanLoop` on the written part `out.buf[:out.w]` of the buffer
alone: the index at which the `..` backtrack stops. -/
def btIndex (dotdot : Nat) (l : GoString) : Nat → Nat
  | 0 => 0
  | w + 1 => if w + 1 > dotdot ∧ l.getD (w + 1) 0 ≠ slash then btIndex dotdot l w else w + 1

/-- The `..` backtrack on the written part of the buffer. -/
def backtrackList (dotdot : Nat) (l : GoString) : GoString :=
  l.take (btIndex dotdot l (l.length - 1))

/-- The copy loop on the written part of the buffer. -/
def copyElemList (out : GoString) : GoString → GoString × GoString
  | [] => (out, [])
  | c :: t => if c = slash then (out, c :: t) else copyElemList (out ++ [c]) t

/-- The main loop on the written part of the buffer. -/
def cleanList (rooted : Bool) : Nat → GoString → GoString → Nat → GoString
  | 0, _, out, _ => out
  | _ + 1, [], out, _ => out
  | fuel + 1, c :: t, out, dotdot =>
    if c = slash then cleanList rooted fuel t out dotdot
    else if c = dot ∧ (t = [] ∨ t.head? = some slash) then cleanList rooted fuel t out dotdot
    else if c = dot ∧ t.head? = some dot ∧ (t.tail = [] ∨ t.tail.head? = some slash) then
      if out.length > dotdot then
        cleanList rooted fuel t.tail (backtrackList dotdot out) dotdot
      else if !rooted then
        let out1 := if out.length > 0 then out ++ [slash] else out
        let out2 := out1 ++ [dot] ++ [dot]
        cleanList rooted fuel t.tail out2 out2.length
      else cleanList rooted fuel t.tail out dotdot
    else
      let out1 :=
        if (rooted ∧ out.length ≠ 1) ∨ (!rooted ∧ out.length ≠ 0) then out ++ [slash] else out
      let p := copyElemList out1 (c :: t)
      cleanList rooted fuel p.2 p.1 dotdot

/-- The buffer is within its capacity: `buf`, once allocated, has `len(s)`
bytes, and at most `len(s)` bytes are written. -/
def lazybuf.WF (b : lazybuf) : Prop :=
  b.w ≤ b.s.length ∧ ∀ buf, b.buf = some buf → buf.length = b.s.length

/-- The `/`-separated elements of a path (`strings.Split(path, "/")`). -/
def segs : GoString → List GoString
  | [] => [[]]
  | c :: t =>
    if c = slash then [] :: segs t
    else
      match segs t with
      | [] => [[c]]
      | e :: es => (c :: e) :: es

/-- The elements of `stack`, each preceded by `/`. -/
def tailStr (stack : List GoString) : GoString := stack.flatMap (fun e => slash :: e)

/-- The number of bytes `Clean` writes before the loop: 1 (the leading `/`) for
a rooted path, else 0. -/
def baseLen (rooted : Bool) : Nat := if rooted then 1 else 0

/-- The cleaned path made of the prefix `pre` that `..` cannot remove (`/`,
nothing, or `../..`) and of the elements `stack` kept after it. -/
def glue (rooted : Bool) (st : GoString × List GoString) : GoString :=
  st.1 ++ (if st.1.length = baseLen rooted then (tailStr st.2).drop 1 else tailStr st.2)

/-- The effect of one path element on the prefix and the kept elements: an
empty element and `.` are dropped, `..` removes the last kept element or, when
there is none and the path is not rooted, extends the prefix; any other element
is kept. -/
def step (rooted : Bool) (st : GoString × List GoString) (e : GoString) :
    GoString × List GoString :=
  if e = [] ∨ e = [dot] then st
  else if e = [dot, dot] then
    if st.2 ≠ [] then (st.1, st.2.dropLast)
    else if rooted then st
    else (if st.1 = [] then [dot, dot] else st.1 ++ [slash, dot, dot], [])
  else (st.1, st.2 ++ [e])

/-- A path element that `Clean` keeps: not empty, without `/`, and neither `.`
nor `..`. -/
def IsName (e : GoString) : Prop := e ≠ [] ∧ slash ∉ e ∧ e ≠ [dot] ∧ e ≠ [dot, dot]

/-- A state of the cleaning: the prefix of a rooted path is `/`, and the kept
elements are names. -/
def ValidState (rooted : Bool) (st : GoString × List GoString) : Prop :=
  (rooted = true → st.1 = [slash]) ∧ ∀ e ∈ st.2, IsName e

/-- The prefix and the kept elements of a whole path. -/
def cleanState (path : GoString) : GoString × List GoString :=
  let rooted : Bool := path.head? = some slash
  (segs path).foldl (step rooted) (if rooted then [slash] else [], [])

/-- The result of `Clean` in terms of the elements of the path. -/
def cleanSpec (path : GoString) : GoString :=
  let out := glue (path.head? = some slash) (cleanState path)
  if out = [] then [dot] else out

/-! ## A sample world -/

/-- A world with the media directory `/media`: `photo.jpg`, `photo.JPG` and
`logo.png` are images of `width` x `height` pixels, `corrupt.png` is a file the
decoder rejects, `archive` and `album.png` are directories, `locked.png` cannot
be inspected (`EACCES`), and nothing else exists. A resized image encodes to the
two bytes `cols % 256`, `rows % 256`. -/
def sampleEnv (width height : Nat) : Env where
  Stat := fun f =>
    if f = str "/media/photo.jpg" ∨ f = str "/media/photo.JPG" ∨ f = str "/media/logo.png"
        ∨ f = str "/media/corrupt.png" then StatResult.info false
    else if f = str "/media/archive" ∨ f = str "/media/album.png" then StatResult.info true
    else if f = str "/media/locked.png" then StatResult.err (GoError.PathError 13)
    else StatResult.err (GoError.PathError ENOENT)
  ReadImage := fun f =>
    if f = str "/media/corrupt.png" then some { kind := 425, description := str "corrupt image" }
    else none
  GetImageWidth := fun _ => width
  GetImageHeight := fun _ => height
  ResizeImage := fun _ _ _ => none
  GetImageBlob := fun _ cols rows => Except.ok [cols % 256, rows % 256]
  uintOutOfRange := 0

/-- The service `Run` starts for `--mediapath /media`. -/
def sampleResizer : Resizer := Resizer.default (str "/media")

/-! ## The branches of `Resize` -/

theorem Resize_of_not_GET {σ : Type} (env : Env) (W : ResponseWriter σ) (rsz : Resizer) (w : σ)
    (r : Request) (h : r.Method ≠ str "GET") :
    Resize env W rsz w r =
      { w := httpError W w (str "Method not allowed") StatusMethodNotAllowed
        calls := [Effect.NewMagickWand, Effect.Destroy]
        panicked := false } := by
  unfold Resize
  rw [if_pos h]

theorem Resize_of_no_ext {σ : Type} (env : Env) (W : ResponseWriter σ) (rsz : Resizer) (w : σ)
    (r : Request) (h : r.Method = str "GET") (hext : Ext (srcFile rsz r) = []) :
    Resize env W rsz w r =
      { w := w, calls := [Effect.NewMagickWand, Effect.Destroy], panicked := true } := by
  unfold Resize
  rw [if_neg (not_not.mpr h)]
  simp only [hext, sliceFrom1]
  rfl

theorem Resize_of_ext_refused {σ : Type} (env : Env) (W : ResponseWriter σ) (rsz : Resizer)
    (w : σ) (r : Request) (c : Byte) (t : GoString) (h : r.Method = str "GET")
    (hext : Ext (srcFile rsz r) = c :: t) (ht : isImageTypeAllowed t = false) :
    Resize env W rsz w r =
      { w := httpError W w (str "Unsupported media type") StatusUnsupportedMediaType
        calls := [Effect.NewMagickWand, Effect.Destroy]
        panicked := false } := by
  unfold Resize
  rw [if_neg (not_not.mpr h)]
  simp [hext, sliceFrom1, ht]

theorem Resize_of_load_error {σ : Type} (env : Env) (W : ResponseWriter σ) (rsz : Resizer)
    (w : σ) (r : Request) (c : Byte) (t : GoString) (err : GoError) (h : r.Method = str "GET")
    (hext : Ext (srcFile rsz r) = c :: t) (ht : isImageTypeAllowed t = true)
    (hrd : (readImage env (srcFile rsz r)).1 = some err) :
    Resize env W rsz w r =
      { w :=
          if err.isNotExist then httpNotFound W w
          else httpError W w (str "Internal server error") StatusInternalServerError
        calls := Effect.NewMagickWand :: (readImage env (srcFile rsz r)).2 ++ [Effect.Destroy]
        panicked := false } := by
  unfold Resize
  rw [if_neg (not_not.mpr h)]
  simp [hext, sliceFrom1, ht, hrd]

theorem readImage_of_stat_err (env : Env) (f : GoString) (e : GoError)
    (h : env.Stat f = StatResult.err e) :
    readImage env f = (some (if e.isNotExist then ErrNotExist else e), [Effect.Stat f]) := by
  unfold readImage
  rw [h]
  by_cases he : e.isNotExist = true <;> simp [he]

theorem readImage_of_dir (env : Env) (f : GoString) (h : env.Stat f = StatResult.info true) :
    readImage env f = (some ErrNotExist, [Effect.Stat f]) := by
  unfold readImage
  rw [h]
  rfl

theorem readImage_of_file (env : Env) (f : GoString) (h : env.Stat f = StatResult.info false) :
    readImage env f =
      ((env.ReadImage f).map GoError.Magick, [Effect.Stat f, Effect.ReadImage f]) := by
  unfold readImage
  rw [h]
  rfl

theorem isImageTypeAllowedLoop_iff (ext : GoString) (l : List GoString) :
    isImageTypeAllowedLoop ext l = true ↔ ext ∈ l := by
  induction l with
  | nil => simp [isImageTypeAllowedLoop]
  | cons a l ih =>
    unfold isImageTypeAllowedLoop
    by_cases h : a = ext
    · simp [h]
    · rw [if_neg h, ih, List.mem_cons]
      constructor
      · exact Or.inr
      · rintro (h1 | h1)
        · exact absurd h1.symm h
        · exact h1

theorem isImageTypeAllowed_iff (ext : GoString) :
    isImageTypeAllowed ext = true ↔ ext ∈ allowed :=
  isImageTypeAllowedLoop_iff ext allowed

theorem Resize_of_loaded {σ : Type} (env : Env) (W : ResponseWriter σ) (rsz : Resizer)
    (w : σ) (r : Request) (c : Byte) (t : GoString) (h : r.Method = str "GET")
    (hext : Ext (srcFile rsz r) = c :: t) (ht : isImageTypeAllowed t = true)
    (hrd : (readImage env (srcFile rsz r)).1 = none) :
    Resize env W rsz w r =
      let src := srcFile rsz r
      let rows := dstHeight env (env.GetImageWidth src) (env.GetImageHeight src) rsz.width
      let calls := Effect.NewMagickWand :: (readImage env src).2 ++
        [Effect.GetImageWidth, Effect.GetImageHeight, Effect.ResizeImage rsz.width rows]
      match env.ResizeImage src rsz.width rows with
      | some _ =>
        { w := httpError W w (str "Internal server error") StatusInternalServerError
          calls := calls ++ [Effect.Destroy]
          panicked := false }
      | none =>
        let w1 := W.HeaderSet (W.HeaderSet w (str "Content-Type") (getMime t))
          (str "Cache-Control") (str "max-age=" ++ stringOfUint rsz.cacheTTL)
        match env.GetImageBlob src rsz.width rows with
        | Except.error _ =>
          { w := httpError W w1 (str "Internal server error") StatusInternalServerError
            calls := calls ++ [Effect.GetImageBlob, Effect.Destroy]
            panicked := false }
        | Except.ok blob =>
          if (ioCopy W w1 blob).panicked then
            { w := (ioCopy W w1 blob).w
              calls := calls ++ [Effect.GetImageBlob, Effect.Destroy]
              panicked := true }
          else
            match (ioCopy W w1 blob).err with
            | some _ =>
              { w := httpError W (ioCopy W w1 blob).w (str "Internal server error")
                  StatusInternalServerError
                calls := calls ++ [Effect.GetImageBlob, Effect.Destroy]
                panicked := false }
            | none =>
              { w := (ioCopy W w1 blob).w
                calls := calls ++ [Effect.GetImageBlob, Effect.Destroy]
                panicked := false } := by
  unfold Resize
  rw [if_neg (not_not.mpr h)]
  simp [hext, sliceFrom1, ht, hrd]

/-- On the recorder `io.Copy` writes the whole blob, without error or panic. -/
theorem ioCopy_recorder (rc : Recorder) (blob : List Byte) :
    ioCopy Recorder.writer rc blob =
      { w := if blob = [] then rc else (Recorder.Write rc blob).1
        err := none
        panicked := false } := by
  unfold ioCopy
  by_cases hb : blob = []
  · simp [hb]
  · have hl : blob.length ≠ 0 := by simpa using hb
    simp [hb, hl, Recorder.writer, Recorder.Write]

/-- The rows `Resize` asks for: `dstHeight` of the decoded image. -/
theorem respond_of_resize_error (env : Env) (rsz : Resizer) (r : Request) (c : Byte)
    (t : GoString) (e : MagickWandException) (h : r.Method = str "GET")
    (hext : Ext (srcFile rsz r) = c :: t) (ht : isImageTypeAllowed t = true)
    (hrd : (readImage env (srcFile rsz r)).1 = none)
    (hrz : env.ResizeImage (srcFile rsz r) rsz.width
      (dstHeight env (env.GetImageWidth (srcFile rsz r)) (env.GetImageHeight (srcFile rsz r))
        rsz.width) = some e) :
    respond env rsz r =
      { w := httpError Recorder.writer Recorder.new (str "Internal server error")
          StatusInternalServerError
        calls := Effect.NewMagickWand :: (readImage env (srcFile rsz r)).2 ++
          [Effect.GetImageWidth, Effect.GetImageHeight,
            Effect.ResizeImage rsz.width
              (dstHeight env (env.GetImageWidth (srcFile rsz r))
                (env.GetImageHeight (srcFile rsz r)) rsz.width),
            Effect.Destroy]
        panicked := false } := by
  unfold respond
  rw [Resize_of_loaded env Recorder.writer rsz Recorder.new r c t h hext ht hrd]
  simp [hrz]

theorem respond_of_blob_error (env : Env) (rsz : Resizer) (r : Request) (c : Byte)
    (t : GoString) (e : MagickWandException) (h : r.Method = str "GET")
    (hext : Ext (srcFile rsz r) = c :: t) (ht : isImageTypeAllowed t = true)
    (hrd : (readImage env (srcFile rsz r)).1 = none)
    (hrz : env.ResizeImage (srcFile rsz r) rsz.width
      (dstHeight env (env.GetImageWidth (srcFile rsz r)) (env.GetImageHeight (srcFile rsz r))
        rsz.width) = none)
    (hbl : env.GetImageBlob (srcFile rsz r) rsz.width
      (dstHeight env (env.GetImageWidth (srcFile rsz r)) (env.GetImageHeight (srcFile rsz r))
        rsz.width) = Except.error e) :
    respond env rsz r =
      { w := httpError Recorder.writer
          { header := Header.Set (Header.Set [] (str "Content-Type") (getMime t))
              (str "Cache-Control") (str "max-age=" ++ stringOfUint rsz.cacheTTL)
            sent := none
            body := [] }
          (str "Internal server error") StatusInternalServerError
        calls := Effect.NewMagickWand :: (readImage env (srcFile rsz r)).2 ++
          [Effect.GetImageWidth, Effect.GetImageHeight,
            Effect.ResizeImage rsz.width
              (dstHeight env (env.GetImageWidth (srcFile rsz r))
                (env.GetImageHeight (srcFile rsz r)) rsz.width),
            Effect.GetImageBlob, Effect.Destroy]
        panicked := false } := by
  unfold respond
  rw [Resize_of_loaded env Recorder.writer rsz Recorder.new r c t h hext ht hrd]
  simp [hrz, hbl, Recorder.writer, Recorder.new]

theorem respond_of_blob (env : Env) (rsz : Resizer) (r : Request) (c : Byte)
    (t : GoString) (blob : List Byte) (h : r.Method = str "GET")
    (hext : Ext (srcFile rsz r) = c :: t) (ht : isImageTypeAllowed t = true)
    (hrd : (readImage env (srcFile rsz r)).1 = none)
    (hrz : env.ResizeImage (srcFile rsz r) rsz.width
      (dstHeight env (env.GetImageWidth (srcFile rsz r)) (env.GetImageHeight (srcFile rsz r))
        rsz.width) = none)
    (hbl : env.GetImageBlob (srcFile rsz r) rsz.width
      (dstHeight env (env.GetImageWidth (srcFile rsz r)) (env.GetImageHeight (srcFile rsz r))
        rsz.width) = Except.ok blob) :
    respond env rsz r =
      { w :=
          { header := Header.Set (Header.Set [] (str "Content-Type") (getMime t))
              (str "Cache-Control") (str "max-age=" ++ stringOfUint rsz.cacheTTL)
            sent :=
              if blob = [] then none
              else some (StatusOK, Header.Set (Header.Set [] (str "Content-Type") (getMime t))
                (str "Cache-Control") (str "max-age=" ++ stringOfUint rsz.cacheTTL))
            body := blob }
        calls := Effect.NewMagickWand :: (readImage env (srcFile rsz r)).2 ++
          [Effect.GetImageWidth, Effect.GetImageHeight,
            Effect.ResizeImage rsz.width
              (dstHeight env (env.GetImageWidth (srcFile rsz r))
                (env.GetImageHeight (srcFile rsz r)) rsz.width),
            Effect.GetImageBlob, Effect.Destroy]
        panicked := false } := by
  unfold respond
  rw [Resize_of_loaded env Recorder.writer rsz Recorder.new r c t h hext ht hrd]
  simp only [hrz, hbl, ioCopy_recorder]
  by_cases hb : blob = []
  · subst hb
    simp [Recorder.writer, Recorder.new]
  · simp [hb, Recorder.writer, Recorder.new, Recorder.Write, Recorder.WriteHeader]

theorem extLoop_shape (rev : List Byte) (acc : GoString) :
    extLoop rev acc = [] ∨ ∃ t, extLoop rev acc = dot :: t := by
  induction rev generalizing acc with
  | nil => exact Or.inl rfl
  | cons c rev ih =>
    unfold extLoop
    by_cases h1 : c = slash
    · rw [if_pos h1]; exact Or.inl rfl
    · rw [if_neg h1]
      by_cases h2 : c = dot
      · rw [if_pos h2]; exact Or.inr ⟨acc, by rw [h2]⟩
      · rw [if_neg h2]; exact ih (c :: acc)

/-- A non-empty extension starts with the dot. -/
theorem Ext_shape (f : GoString) : Ext f = [] ∨ ∃ t, Ext f = dot :: t :=
  extLoop_shape f.reverse []

theorem status_httpError_new (msg : GoString) (code : Int) :
    (httpError Recorder.writer Recorder.new msg code).status = code := rfl

/-- The shapes of a response of `Resize` on a fresh recorder. -/
theorem respond_cases (env : Env) (rsz : Resizer) (r : Request) :
    (r.Method ≠ str "GET" ∧ (respond env rsz r).w.status = 405 ∧
      (respond env rsz r).panicked = false) ∨
    (r.Method = str "GET" ∧ Ext (srcFile rsz r) = [] ∧ (respond env rsz r).panicked = true) ∨
    (r.Method = str "GET" ∧ (∃ t, Ext (srcFile rsz r) = dot :: t ∧ isImageTypeAllowed t = false) ∧
      (respond env rsz r).w.status = 415 ∧ (respond env rsz r).panicked = false) ∨
    (r.Method = str "GET" ∧ (∃ t, Ext (srcFile rsz r) = dot :: t ∧ isImageTypeAllowed t = true) ∧
      ((respond env rsz r).w.status = 404 ∨ (respond env rsz r).w.status = 500) ∧
      (respond env rsz r).panicked = false) ∨
    (r.Method = str "GET" ∧ ∃ t blob, Ext (srcFile rsz r) = dot :: t ∧ isImageTypeAllowed t = true ∧
      (respond env rsz r).w =
        { header := Header.Set (Header.Set [] (str "Content-Type") (getMime t))
            (str "Cache-Control") (str "max-age=" ++ stringOfUint rsz.cacheTTL)
          sent :=
            if blob = [] then none
            else some (StatusOK, Header.Set (Header.Set [] (str "Content-Type") (getMime t))
              (str "Cache-Control") (str "max-age=" ++ stringOfUint rsz.cacheTTL))
          body := blob } ∧
      (respond env rsz r).w.status = 200 ∧
      (respond env rsz r).w.sentHeader =
        Header.Set (Header.Set [] (str "Content-Type") (getMime t))
            (str "Cache-Control") (str "max-age=" ++ stringOfUint rsz.cacheTTL) ∧
      (respond env rsz r).panicked = false) := by
  by_cases hm : r.Method = str "GET"
  swap
  · left
    refine ⟨hm, ?_⟩
    unfold respond
    rw [Resize_of_not_GET env Recorder.writer rsz Recorder.new r hm]
    exact ⟨rfl, rfl⟩
  right
  rcases Ext_shape (srcFile rsz r) with hext | ⟨t, hext⟩
  · left
    refine ⟨hm, hext, ?_⟩
    unfold respond
    rw [Resize_of_no_ext env Recorder.writer rsz Recorder.new r hm hext]
  right
  cases ht : isImageTypeAllowed t with
  | false =>
    left
    refine ⟨hm, ⟨t, hext, ht⟩, ?_⟩
    unfold respond
    rw [Resize_of_ext_refused env Recorder.writer rsz Recorder.new r dot t hm hext ht]
    exact ⟨rfl, rfl⟩
  | true =>
    right
    cases hrd : (readImage env (srcFile rsz r)).1 with
    | some err =>
      left
      refine ⟨hm, ⟨t, hext, ht⟩, ?_⟩
      unfold respond
      rw [Resize_of_load_error env Recorder.writer rsz Recorder.new r dot t err hm hext ht hrd]
      cases err.isNotExist with
      | true => exact ⟨Or.inl rfl, rfl⟩
      | false => exact ⟨Or.inr rfl, rfl⟩
    | none =>
      cases hrz : env.ResizeImage (srcFile rsz r) rsz.width
          (dstHeight env (env.GetImageWidth (srcFile rsz r))
            (env.GetImageHeight (srcFile rsz r)) rsz.width) with
      | some e =>
        left
        refine ⟨hm, ⟨t, hext, ht⟩, ?_⟩
        rw [respond_of_resize_error env rsz r dot t e hm hext ht hrd hrz]
        exact ⟨Or.inr rfl, rfl⟩
      | none =>
        cases hbl : env.GetImageBlob (srcFile rsz r) rsz.width
            (dstHeight env (env.GetImageWidth (srcFile rsz r))
              (env.GetImageHeight (srcFile rsz r)) rsz.width) with
        | error e =>
          left
          refine ⟨hm, ⟨t, hext, ht⟩, ?_⟩
          rw [respond_of_blob_error env rsz r dot t e hm hext ht hrd hrz hbl]
          exact ⟨Or.inr rfl, rfl⟩
        | ok blob =>
          right
          refine ⟨hm, t, blob, hext, ht, ?_⟩
          rw [respond_of_blob env rsz r dot t blob hm hext ht hrd hrz hbl]
          refine ⟨rfl, ?_, ?_, rfl⟩
          · by_cases hb : blob = []
            · simp only [hb, Recorder.status, if_true]
              rfl
            · simp only [hb, Recorder.status, if_false]
              rfl
          · by_cases hb : blob = []
            · simp only [hb, Recorder.sentHeader, if_true]
            · simp only [hb, Recorder.sentHeader, if_false]

/-! ## Method, extension and loader -/

/-- C2: a request whose method is not `GET` is answered 405 whatever its path: on
every response writer `Resize` does exactly `http.Error(w, "Method not allowed",
405)` and returns; the only calls outside the writer create and destroy the wand,
so the file system and the image loader are not consulted, and the body of the
response is the error text, not image bytes. -/
theorem Resize_method_not_allowed (env : Env) (rsz : Resizer) (r : Request)
    (h : r.Method ≠ str "GET") :
    (∀ (σ : Type) (W : ResponseWriter σ) (w : σ),
        Resize env W rsz w r =
          { w := httpError W w (str "Method not allowed") StatusMethodNotAllowed
            calls := [Effect.NewMagickWand, Effect.Destroy]
            panicked := false }) ∧
      (respond env rsz r).panicked = false ∧
      (respond env rsz r).w.status = 405 ∧
      (respond env rsz r).w.body = str "Method not allowed\n" ∧
      (respond env rsz r).calls = [Effect.NewMagickWand, Effect.Destroy] ∧
      (∀ f, Effect.Stat f ∉ (respond env rsz r).calls ∧
        Effect.ReadImage f ∉ (respond env rsz r).calls) ∧
      Effect.GetImageBlob ∉ (respond env rsz r).calls := by
  have hres := Resize_of_not_GET env Recorder.writer rsz Recorder.new r h
  unfold respond
  rw [hres]
  refine ⟨fun σ W w => Resize_of_not_GET env W rsz w r h, rfl, rfl, rfl, rfl, ?_, ?_⟩
  · intro f
    simp
  · simp

/-- Witness of C2: `POST /archive` (no extension) and `POST /notes.txt` are
answered 405. -/
theorem Resize_method_not_allowed_witness :
    str "POST" ≠ str "GET" ∧
      (respond (sampleEnv 400 300) sampleResizer ⟨str "POST", str "/archive"⟩).w.status = 405 ∧
      (respond (sampleEnv 400 300) sampleResizer ⟨str "POST", str "/notes.txt"⟩).w.status =
        405 :=
  ⟨by decide,
    (Resize_method_not_allowed (sampleEnv 400 300) sampleResizer ⟨str "POST", str "/archive"⟩
      (by decide)).2.2.1,
    (Resize_method_not_allowed (sampleEnv 400 300) sampleResizer ⟨str "POST", str "/notes.txt"⟩
      (by decide)).2.2.1⟩

/-- C1, the code at the failing input: for `GET /archive` and for `GET /` under
the media root `/media` the resolved path has no extension, and `Resize` panics
on `filepath.Ext(srcFile)[1:]`: it leaves the response untouched (no status 415
is written) and does not return normally. -/
theorem Resize_no_extension_panics (env : Env) :
    Ext (srcFile sampleResizer ⟨str "GET", str "/archive"⟩) = [] ∧
      (respond env sampleResizer ⟨str "GET", str "/archive"⟩).panicked = true ∧
      (respond env sampleResizer ⟨str "GET", str "/archive"⟩).w = Recorder.new ∧
      (respond env sampleResizer ⟨str "GET", str "/"⟩).panicked = true ∧
      (respond env sampleResizer ⟨str "GET", str "/"⟩).w = Recorder.new := by
  have h1 : Ext (srcFile sampleResizer ⟨str "GET", str "/archive"⟩) = [] := by decide
  have h2 : Ext (srcFile sampleResizer ⟨str "GET", str "/"⟩) = [] := by decide
  have r1 := Resize_of_no_ext env Recorder.writer sampleResizer Recorder.new
    ⟨str "GET", str "/archive"⟩ rfl h1
  have r2 := Resize_of_no_ext env Recorder.writer sampleResizer Recorder.new
    ⟨str "GET", str "/"⟩ rfl h2
  refine ⟨h1, ?_, ?_, ?_, ?_⟩ <;> simp only [respond, r1, r2]

/-- C3: for a `GET` request whose extension is in the allow-list the status is
decided by the loader. When the resolved path is a directory or `os.Stat` reports
that it does not exist, `readImage` returns `ErrNotExist` after the `Stat` call
alone (the decoder is not called) and the response is 404. When `os.Stat` fails
otherwise, `readImage` returns that error, and when the decoder rejects an
existing file, `readImage` returns the decoder's error; the response is 500. In
every one of these cases `Resize` returns normally, the wand is only created and
destroyed besides the loader's calls (no resize, no encoding), and the body is
the text of `http.Error`. -/
theorem Resize_loader_outcome (env : Env) (rsz : Resizer) (r : Request) (t : GoString)
    (hGET : r.Method = str "GET") (hext : Ext (srcFile rsz r) = dot :: t)
    (ht : t ∈ allowed) :
    ((env.Stat (srcFile rsz r) = StatResult.info true ∨
        ∃ e, env.Stat (srcFile rsz r) = StatResult.err e ∧ e.isNotExist = true) →
      readImage env (srcFile rsz r) = (some ErrNotExist, [Effect.Stat (srcFile rsz r)]) ∧
      (respond env rsz r).w.status = 404 ∧
      (respond env rsz r).w.body = str "404 page not found\n" ∧
      (respond env rsz r).calls =
        [Effect.NewMagickWand, Effect.Stat (srcFile rsz r), Effect.Destroy] ∧
      (respond env rsz r).panicked = false) ∧
    (∀ e, env.Stat (srcFile rsz r) = StatResult.err e → e.isNotExist = false →
      readImage env (srcFile rsz r) = (some e, [Effect.Stat (srcFile rsz r)]) ∧
      (respond env rsz r).w.status = 500 ∧
      (respond env rsz r).w.body = str "Internal server error\n" ∧
      (respond env rsz r).calls =
        [Effect.NewMagickWand, Effect.Stat (srcFile rsz r), Effect.Destroy] ∧
      (respond env rsz r).panicked = false) ∧
    (∀ x, env.Stat (srcFile rsz r) = StatResult.info false →
      env.ReadImage (srcFile rsz r) = some x →
      readImage env (srcFile rsz r) =
        (some (GoError.Magick x),
          [Effect.Stat (srcFile rsz r), Effect.ReadImage (srcFile rsz r)]) ∧
      (respond env rsz r).w.status = 500 ∧
      (respond env rsz r).w.body = str "Internal server error\n" ∧
      (respond env rsz r).calls =
        [Effect.NewMagickWand, Effect.Stat (srcFile rsz r),
          Effect.ReadImage (srcFile rsz r), Effect.Destroy] ∧
      (respond env rsz r).panicked = false) := by
  have hal : isImageTypeAllowed t = true := (isImageTypeAllowed_iff t).mpr ht
  refine ⟨?_, ?_, ?_⟩
  · intro hstat
    have hrd : readImage env (srcFile rsz r) =
        (some ErrNotExist, [Effect.Stat (srcFile rsz r)]) := by
      rcases hstat with hdir | ⟨e, he, hne⟩
      · exact readImage_of_dir env _ hdir
      · rw [readImage_of_stat_err env _ e he, hne]
        rfl
    have hres := Resize_of_load_error env Recorder.writer rsz Recorder.new r dot t
      ErrNotExist hGET hext hal (by rw [hrd])
    unfold respond
    rw [hres, hrd]
    exact ⟨rfl, rfl, rfl, rfl, rfl⟩
  · intro e he hne
    have hrd : readImage env (srcFile rsz r) = (some e, [Effect.Stat (srcFile rsz r)]) := by
      rw [readImage_of_stat_err env _ e he, hne]
      rfl
    have hres := Resize_of_load_error env Recorder.writer rsz Recorder.new r dot t
      e hGET hext hal (by rw [hrd])
    unfold respond
    rw [hres, hrd, hne]
    exact ⟨rfl, rfl, rfl, rfl, rfl⟩
  · intro x hfile hdec
    have hrd : readImage env (srcFile rsz r) =
        (some (GoError.Magick x),
          [Effect.Stat (srcFile rsz r), Effect.ReadImage (srcFile rsz r)]) := by
      rw [readImage_of_file env _ hfile, hdec]
      rfl
    have hres := Resize_of_load_error env Recorder.writer rsz Recorder.new r dot t
      (GoError.Magick x) hGET hext hal (by rw [hrd])
    unfold respond
    rw [hres, hrd]
    exact ⟨rfl, rfl, rfl, rfl, rfl⟩

/-- Witness of C3: in the sample world `GET /missing.png` (no such file) and
`GET /album.png` (a directory) are answered 404, `GET /locked.png` (`EACCES`) and
`GET /corrupt.png` (invalid image data) are answered 500. -/
theorem Resize_loader_outcome_witness :
    (respond (sampleEnv 400 300) sampleResizer ⟨str "GET", str "/missing.png"⟩).w.status = 404 ∧
    (respond (sampleEnv 400 300) sampleResizer ⟨str "GET", str "/album.png"⟩).w.status = 404 ∧
    (respond (sampleEnv 400 300) sampleResizer ⟨str "GET", str "/locked.png"⟩).w.status = 500 ∧
    (respond (sampleEnv 400 300) sampleResizer ⟨str "GET", str "/corrupt.png"⟩).w.status = 500 :=
  ⟨((Resize_loader_outcome (sampleEnv 400 300) sampleResizer ⟨str "GET", str "/missing.png"⟩
      (str "png") (by decide) (by decide) (by decide)).1
      (Or.inr ⟨GoError.PathError ENOENT, by decide, by decide⟩)).2.1,
    ((Resize_loader_outcome (sampleEnv 400 300) sampleResizer ⟨str "GET", str "/album.png"⟩
      (str "png") (by decide) (by decide) (by decide)).1 (Or.inl (by decide))).2.1,
    ((Resize_loader_outcome (sampleEnv 400 300) sampleResizer ⟨str "GET", str "/locked.png"⟩
      (str "png") (by decide) (by decide) (by decide)).2.1 (GoError.PathError 13)
      (by decide) (by decide)).2.1,
    ((Resize_loader_outcome (sampleEnv 400 300) sampleResizer ⟨str "GET", str "/corrupt.png"⟩
      (str "png") (by decide) (by decide) (by decide)).2.2
      { kind := 425, description := str "corrupt image" } (by decide) (by decide)).2.1⟩

/-! ## Extension check, MIME table and headers -/

/-- C7, counterexample: `JPG` equals `jpg` after lower-casing and `jpg` is in the
allow-list, yet `isImageTypeAllowed` rejects `JPG`, and `GET /photo.JPG` (an
existing image of the sample world) is answered 415. -/
theorem Resize_upper_case_refused :
    asciiLower (str "JPG") = str "jpg" ∧ str "jpg" ∈ allowed ∧
      Ext (srcFile sampleResizer ⟨str "GET", str "/photo.JPG"⟩) = dot :: str "JPG" ∧
      isImageTypeAllowed (str "JPG") = false ∧
      (respond (sampleEnv 400 300) sampleResizer ⟨str "GET", str "/photo.JPG"⟩).panicked =
        false ∧
      (respond (sampleEnv 400 300) sampleResizer ⟨str "GET", str "/photo.JPG"⟩).w.status =
        415 := by
  decide

/-- C7, amended: the allow-list check is an exact, case-sensitive comparison.
`isImageTypeAllowed` accepts an extension if and only if it is byte for byte one
of `jpg`, `jpeg`, `png`, `gif`, `webp`; a `GET` request whose extension is one of
them is not answered 415 (`Resize` returns with 404, 500 or 200), and a `GET`
request with any other non-empty extension is answered 415. -/
theorem Resize_exact_allow_list (env : Env) (rsz : Resizer) (r : Request) (t : GoString)
    (hGET : r.Method = str "GET") (hext : Ext (srcFile rsz r) = dot :: t) :
    (isImageTypeAllowed t = true ↔ t ∈ allowed) ∧
      (t ∈ allowed →
        (respond env rsz r).panicked = false ∧ (respond env rsz r).w.status ≠ 415 ∧
        ((respond env rsz r).w.status = 404 ∨ (respond env rsz r).w.status = 500 ∨
          (respond env rsz r).w.status = 200)) ∧
      (t ∉ allowed →
        (respond env rsz r).panicked = false ∧ (respond env rsz r).w.status = 415) := by
  refine ⟨isImageTypeAllowed_iff t, ?_, ?_⟩
  · intro ht
    have hal : isImageTypeAllowed t = true := (isImageTypeAllowed_iff t).mpr ht
    have hst : ((respond env rsz r).w.status = 404 ∨ (respond env rsz r).w.status = 500 ∨
        (respond env rsz r).w.status = 200) ∧ (respond env rsz r).panicked = false := by
      rcases respond_cases env rsz r with h | h | h | h | h
      · exact absurd hGET h.1
      · rw [hext] at h
        cases h.2.1
      · obtain ⟨_, ⟨t1, h1, h2⟩, _⟩ := h
        rw [hext] at h1
        injection h1 with _ h1
        rw [h1, h2] at hal
        cases hal
      · rcases h.2.2.1 with h1 | h1
        · exact ⟨Or.inl h1, h.2.2.2⟩
        · exact ⟨Or.inr (Or.inl h1), h.2.2.2⟩
      · obtain ⟨_, t1, blob, _, _, _, hs, _, hp⟩ := h
        exact ⟨Or.inr (Or.inr hs), hp⟩
    obtain ⟨hst, hp⟩ := hst
    refine ⟨hp, ?_, hst⟩
    rcases hst with h | h | h <;> rw [h] <;> decide
  · intro ht
    have hal : isImageTypeAllowed t = false := by
      cases h : isImageTypeAllowed t with
      | false => rfl
      | true => exact absurd ((isImageTypeAllowed_iff t).mp h) ht
    unfold respond
    rw [Resize_of_ext_refused env Recorder.writer rsz Recorder.new r dot t hGET hext hal]
    exact ⟨rfl, rfl⟩

/-- Witness of C7, amended: `GET /logo.png` has the extension `png` of the
allow-list and is not answered 415; `GET /photo.JPG` has an extension outside it
and is answered 415. -/
theorem Resize_exact_allow_list_witness :
    (respond (sampleEnv 400 300) sampleResizer ⟨str "GET", str "/logo.png"⟩).w.status ≠ 415 ∧
      (respond (sampleEnv 400 300) sampleResizer ⟨str "GET", str "/photo.JPG"⟩).w.status =
        415 :=
  ⟨((Resize_exact_allow_list (sampleEnv 400 300) sampleResizer ⟨str "GET", str "/logo.png"⟩
      (str "png") (by decide) (by decide)).2.1 (by decide)).2.1,
    ((Resize_exact_allow_list (sampleEnv 400 300) sampleResizer ⟨str "GET", str "/photo.JPG"⟩
      (str "JPG") (by decide) (by decide)).2.2 (by decide)).2⟩

/-- Outside its five keys `getMime` answers the default. -/
theorem getMime_of_not_allowed (e : GoString) (h : e ∉ allowed) :
    getMime e = str "application/octet-stream" := by
  simp only [allowed, List.mem_cons, List.mem_singleton, List.not_mem_nil, or_false,
    not_or] at h
  obtain ⟨h1, h2, h3, h4, h5⟩ := h
  have e1 : (e == str "jpg") = false := beq_false_of_ne h1
  have e2 : (e == str "jpeg") = false := beq_false_of_ne h2
  have e3 : (e == str "png") = false := beq_false_of_ne h3
  have e4 : (e == str "gif") = false := beq_false_of_ne h4
  have e5 : (e == str "webp") = false := beq_false_of_ne h5
  simp only [getMime, mimes, List.lookup, e1, e2, e3, e4, e5]

/-- C8: `getMime` is the fixed table: `image/jpeg` for `jpg` and `jpeg`,
`image/png` for `png`, `image/gif` for `gif`, `image/webp` for `webp`, and
`application/octet-stream` for every other string. Hence for every extension
`isImageTypeAllowed` accepts, `getMime` yields one of the four `image/*` values
and not the default, and on every 200 response of `Resize` the `Content-Type`
sent is `getMime` of the extension, one of these four values. -/
theorem getMime_table (env : Env) (rsz : Resizer) (r : Request) :
    getMime (str "jpg") = str "image/jpeg" ∧
    getMime (str "jpeg") = str "image/jpeg" ∧
    getMime (str "png") = str "image/png" ∧
    getMime (str "gif") = str "image/gif" ∧
    getMime (str "webp") = str "image/webp" ∧
    (∀ e, e ≠ str "jpg" → e ≠ str "jpeg" → e ≠ str "png" → e ≠ str "gif" → e ≠ str "webp" →
      getMime e = str "application/octet-stream") ∧
    (∀ e, isImageTypeAllowed e = true →
      getMime e ∈ [str "image/jpeg", str "image/png", str "image/gif", str "image/webp"] ∧
      getMime e ≠ str "application/octet-stream") ∧
    ((respond env rsz r).panicked = false → (respond env rsz r).w.status = 200 →
      ∃ t, Ext (srcFile rsz r) = dot :: t ∧ isImageTypeAllowed t = true ∧
        Header.Get (respond env rsz r).w.sentHeader (str "Content-Type") = some (getMime t) ∧
        getMime t ∈ [str "image/jpeg", str "image/png", str "image/gif", str "image/webp"]) := by
  have hall : ∀ e, isImageTypeAllowed e = true →
      getMime e ∈ [str "image/jpeg", str "image/png", str "image/gif", str "image/webp"] ∧
      getMime e ≠ str "application/octet-stream" := by
    intro e he
    have hmem := (isImageTypeAllowed_iff e).mp he
    simp only [allowed, List.mem_cons, List.mem_singleton, List.not_mem_nil, or_false] at hmem
    rcases hmem with h | h | h | h | h <;> subst h <;> decide
  refine ⟨by decide, by decide, by decide, by decide, by decide, ?_, hall, ?_⟩
  · intro e h1 h2 h3 h4 h5
    apply getMime_of_not_allowed
    simp only [allowed, List.mem_cons, List.mem_singleton, List.not_mem_nil, or_false,
      not_or]
    exact ⟨h1, h2, h3, h4, h5⟩
  · intro hp hs
    rcases respond_cases env rsz r with h | h | h | h | h
    · rw [h.2.1] at hs
      exact absurd hs (by decide)
    · rw [h.2.2] at hp
      cases hp
    · rw [h.2.2.1] at hs
      exact absurd hs (by decide)
    · rcases h.2.2.1 with h1 | h1 <;> rw [h1] at hs <;> exact absurd hs (by decide)
    · obtain ⟨_, t, blob, hext, ht, _, _, hh, _⟩ := h
      refine ⟨t, hext, ht, ?_, (hall t ht).1⟩
      rw [hh]
      have hne : (str "Cache-Control" = str "Content-Type") = False := by
        simp only [eq_iff_iff, iff_false]
        decide
      have hne2 : (str "Content-Type" ≠ str "Cache-Control") := by decide
      simp [Header.Get, Header.Set, List.find?, hne, hne2]

/-- Witness of C8: `png` is accepted and maps to `image/png`; `GET /logo.png` in
the sample world is a 200 response whose `Content-Type` is `image/png`. -/
theorem getMime_table_witness :
    isImageTypeAllowed (str "png") = true ∧ getMime (str "png") = str "image/png" ∧
      (respond (sampleEnv 400 300) sampleResizer ⟨str "GET", str "/logo.png"⟩).w.status = 200 ∧
      getMime (str "png") ≠ str "application/octet-stream" ∧
      ∃ t, Ext (srcFile sampleResizer ⟨str "GET", str "/logo.png"⟩) = dot :: t ∧
        isImageTypeAllowed t = true ∧
        Header.Get (respond (sampleEnv 400 300) sampleResizer
          ⟨str "GET", str "/logo.png"⟩).w.sentHeader (str "Content-Type") = some (getMime t) ∧
        getMime t ∈ [str "image/jpeg", str "image/png", str "image/gif", str "image/webp"] :=
  ⟨by decide, by decide, by decide,
    ((getMime_table (sampleEnv 400 300) sampleResizer ⟨str "GET", str "/logo.png"⟩).2.2.2.2.2.2.1
      (str "png") (by decide)).2,
    (getMime_table (sampleEnv 400 300) sampleResizer ⟨str "GET", str "/logo.png"⟩).2.2.2.2.2.2.2
      (by decide) (by decide)⟩

/-! ## The `Cache-Control` header -/

theorem decimalLoop_append (fuel n : Nat) (acc : List Byte) :
    decimalLoop fuel n acc = decimalLoop fuel n [] ++ acc := by
  induction fuel generalizing n acc with
  | zero => simp [decimalLoop]
  | succ fuel ih =>
    unfold decimalLoop
    by_cases h : n < 10
    · simp [h]
    · rw [if_neg h, if_neg h, ih (n / 10) ((48 + n % 10) :: acc),
        ih (n / 10) [48 + n % 10]]
      simp

/-- The last byte of the decimal representation is the digit of the units. -/
theorem decimal_getLast (n : Nat) : (decimal n).getLast? = some (48 + n % 10) := by
  unfold decimal decimalLoop
  by_cases h : n < 10
  · rw [if_pos h, Nat.mod_eq_of_lt h]
    rfl
  · rw [if_neg h, decimalLoop_append]
    simp

/-- The last byte of the UTF-8 encoding of a rune is the rune itself below 128
and at least 128 otherwise. -/
theorem utf8EncodeRune_getLast (x : Nat) :
    ∃ b : Nat, (utf8EncodeRune x).getLast? = some b ∧ ((x < 128 ∧ b = x) ∨ 128 ≤ b) := by
  unfold utf8EncodeRune
  split
  · next h => exact ⟨x, rfl, Or.inl ⟨h, rfl⟩⟩
  · split
    · exact ⟨0x80 + x % 64, rfl, Or.inr (Nat.le_add_right _ _)⟩
    · split
      · exact ⟨0xBD, rfl, Or.inr (by decide)⟩
      · split
        · exact ⟨0x80 + x % 64, rfl, Or.inr (Nat.le_add_right _ _)⟩
        · split
          · exact ⟨0x80 + x % 64, rfl, Or.inr (Nat.le_add_right _ _)⟩
          · exact ⟨0xBD, rfl, Or.inr (by decide)⟩

/-- For no value of the TTL is `string(cacheTTL)` its decimal representation. -/
theorem stringOfUint_ne_decimal (x : Nat) : stringOfUint x ≠ decimal x := by
  intro h
  obtain ⟨b, hb, hcase⟩ := utf8EncodeRune_getLast x
  have hd := decimal_getLast x
  unfold stringOfUint at h
  rw [h, hd] at hb
  injection hb with hb
  have hb1 : @Eq Nat (48 + x % 10) b := hb
  have hlt : x % 10 < 10 := Nat.mod_lt _ (by decide)
  rcases hcase with ⟨_, hx⟩ | hx
  · omega
  · omega

/-- On every 200 response of `Resize` the `Cache-Control` header is `max-age=`
followed by `string(rsz.cacheTTL)`, which is never the decimal TTL. -/
theorem respond_cache_control (env : Env) (rsz : Resizer) (r : Request)
    (hp : (respond env rsz r).panicked = false) (hs : (respond env rsz r).w.status = 200) :
    Header.Get (respond env rsz r).w.sentHeader (str "Cache-Control") =
        some (str "max-age=" ++ stringOfUint rsz.cacheTTL) ∧
      str "max-age=" ++ stringOfUint rsz.cacheTTL ≠ str "max-age=" ++ decimal rsz.cacheTTL := by
  refine ⟨?_, ?_⟩
  · rcases respond_cases env rsz r with h | h | h | h | h
    · rw [h.2.1] at hs
      exact absurd hs (by decide)
    · rw [h.2.2] at hp
      cases hp
    · rw [h.2.2.1] at hs
      exact absurd hs (by decide)
    · rcases h.2.2.1 with h1 | h1 <;> rw [h1] at hs <;> exact absurd hs (by decide)
    · obtain ⟨_, t, blob, _, _, _, _, hh, _⟩ := h
      rw [hh]
      simp [Header.Get, Header.Set, List.find?]
  · intro h
    exact stringOfUint_ne_decimal _ (List.append_cancel_left h)

/-- C5, the code at the failing input: the default service (`cacheTTL = 86400`)
answers `GET /photo.jpg` with status 200 and the header `Cache-Control` equal to
`max-age=` followed by the four bytes `F0 95 86 80` (the UTF-8 encoding of the
code point U+15180 = 86400), which is what `string(rsz.cacheTTL)` yields, and not
`max-age=86400`. -/
theorem Resize_cache_control_default :
    sampleResizer.cacheTTL = 86400 ∧
      (respond (sampleEnv 400 300) sampleResizer ⟨str "GET", str "/photo.jpg"⟩).panicked =
        false ∧
      (respond (sampleEnv 400 300) sampleResizer ⟨str "GET", str "/photo.jpg"⟩).w.status =
        200 ∧
      Header.Get (respond (sampleEnv 400 300) sampleResizer
          ⟨str "GET", str "/photo.jpg"⟩).w.sentHeader (str "Cache-Control") =
        some (str "max-age=" ++ [0xF0, 0x95, 0x86, 0x80]) ∧
      str "max-age=" ++ [0xF0, 0x95, 0x86, 0x80] ≠ str "max-age=86400" ∧
      decimal 86400 = str "86400" := by
  decide

/-! ## `float64`: what the operations compute -/

theorem bitLog2Loop_spec : ∀ (fuel n : Nat), n ≤ fuel → 0 < n →
    2 ^ bitLog2Loop fuel n ≤ n ∧ n < 2 ^ (bitLog2Loop fuel n + 1) := by
  intro fuel
  induction fuel with
  | zero => intro n h1 h2; omega
  | succ fuel ih =>
    intro n h1 h2
    unfold bitLog2Loop
    by_cases h : n < 2
    · rw [if_pos h]
      simp
      omega
    · rw [if_neg h]
      obtain ⟨a, b⟩ := ih (n / 2) (by omega) (by omega)
      rw [pow_succ] at b ⊢
      rw [pow_succ]
      constructor <;> omega

theorem bitLog2_spec (n : Nat) (h : 0 < n) : 2 ^ bitLog2 n ≤ n ∧ n < 2 ^ (bitLog2 n + 1) :=
  bitLog2Loop_spec n n (Nat.le_refl _) h

theorem scalePow2_spec (num den : Nat) (k : Int) (hden : 0 < den) :
    0 < (scalePow2 num den k).2 ∧
      ((scalePow2 num den k).1 : ℚ) / ((scalePow2 num den k).2 : ℚ) =
        (num : ℚ) / (den : ℚ) * (2 : ℚ) ^ k := by
  unfold scalePow2
  by_cases hk : 0 ≤ k
  · rw [if_pos hk]
    refine ⟨hden, ?_⟩
    have : k = (k.toNat : ℤ) := (Int.toNat_of_nonneg hk).symm
    simp only
    rw [this, zpow_natCast]
    simp only [Int.toNat_ofNat]
    push_cast
    ring
  · rw [if_neg hk]
    have hpos : 0 < 2 ^ (-k).toNat := Nat.pow_pos (by decide)
    refine ⟨Nat.mul_pos hden hpos, ?_⟩
    have hk2 : k = -((-k).toNat : ℤ) := by
      have : 0 ≤ -k := by omega
      rw [Int.toNat_of_nonneg this]
      ring
    simp only
    rw [hk2, zpow_neg, zpow_natCast]
    have h1 : (-(-((-k).toNat : ℤ))).toNat = (-k).toNat := by
      rw [← hk2]
    rw [h1]
    push_cast
    have hd : (den : ℚ) ≠ 0 := by exact_mod_cast (Nat.pos_iff_ne_zero.mp hden)
    field_simp

theorem roundHalfEven_spec (n d : Nat) (hd : 0 < d) :
    |((roundHalfEven n d : ℕ) : ℚ) - (n : ℚ) / (d : ℚ)| ≤ 1 / 2 := by
  have hdq : (0 : ℚ) < d := by exact_mod_cast hd
  have hn : (n : ℚ) = (d : ℚ) * ((n / d : ℕ) : ℚ) + ((n % d : ℕ) : ℚ) := by
    exact_mod_cast (Nat.div_add_mod n d).symm
  have hr : ((n % d : ℕ) : ℚ) < d := by exact_mod_cast Nat.mod_lt n hd
  have hr0 : (0 : ℚ) ≤ ((n % d : ℕ) : ℚ) := by exact_mod_cast Nat.zero_le _
  have hquot : (n : ℚ) / d = ((n / d : ℕ) : ℚ) + ((n % d : ℕ) : ℚ) / d := by
    rw [hn]
    field_simp
    ring
  unfold roundHalfEven
  simp only
  rw [abs_le]
  by_cases hup : 2 * (n % d) > d ∨ (2 * (n % d) = d ∧ n / d % 2 = 1)
  · rw [if_pos hup]
    have h2 : (d : ℚ) ≤ 2 * ((n % d : ℕ) : ℚ) := by
      rcases hup with h | h
      · exact_mod_cast (Nat.le_of_lt h)
      · exact_mod_cast (Nat.le_of_eq h.1.symm)
    rw [hquot]
    push_cast
    constructor
    · have : ((n % d : ℕ) : ℚ) / d ≤ 1 := by
        rw [div_le_one hdq]
        exact le_of_lt hr
      push_cast at this
      linarith
    · have : (1 : ℚ) / 2 ≤ ((n % d : ℕ) : ℚ) / d := by
        rw [le_div_iff₀ hdq]
        linarith
      push_cast at this
      linarith
  · rw [if_neg hup]
    have h2 : 2 * ((n % d : ℕ) : ℚ) ≤ d := by
      have : 2 * (n % d) ≤ d := by
        by_contra hc
        exact hup (Or.inl (by omega))
      exact_mod_cast this
    rw [hquot]
    have ha : (0 : ℚ) ≤ ((n % d : ℕ) : ℚ) / d := div_nonneg hr0 (le_of_lt hdq)
    have hb : ((n % d : ℕ) : ℚ) / d ≤ 1 / 2 := by
      rw [div_le_iff₀ hdq]
      linarith
    constructor <;> linarith

theorem floorLog2_spec (num den : Nat) (hnum : 0 < num) (hden : 0 < den) :
    (2 : ℚ) ^ floorLog2 num den ≤ (num : ℚ) / (den : ℚ) ∧
      (num : ℚ) / (den : ℚ) < (2 : ℚ) ^ (floorLog2 num den + 1) := by
  obtain ⟨n1, n2⟩ := bitLog2_spec num hnum
  obtain ⟨d1, d2⟩ := bitLog2_spec den hden
  have hnq : (0 : ℚ) < num := by exact_mod_cast hnum
  have hdq : (0 : ℚ) < den := by exact_mod_cast hden
  have n1q : (2 : ℚ) ^ (bitLog2 num : ℤ) ≤ num := by
    rw [zpow_natCast]; exact_mod_cast n1
  have n2q : (num : ℚ) < (2 : ℚ) ^ ((bitLog2 num : ℤ) + 1) := by
    have : (num : ℚ) < (2 : ℚ) ^ (bitLog2 num + 1) := by exact_mod_cast n2
    rw [← zpow_natCast] at this
    push_cast at this
    exact this
  have d1q : (2 : ℚ) ^ (bitLog2 den : ℤ) ≤ den := by
    rw [zpow_natCast]; exact_mod_cast d1
  have d2q : (den : ℚ) < (2 : ℚ) ^ ((bitLog2 den : ℤ) + 1) := by
    have : (den : ℚ) < (2 : ℚ) ^ (bitLog2 den + 1) := by exact_mod_cast d2
    rw [← zpow_natCast] at this
    push_cast at this
    exact this
  have h2 : (2 : ℚ) ≠ 0 := by norm_num
  have hp : ∀ z : ℤ, (0 : ℚ) < (2 : ℚ) ^ z := fun z => zpow_pos (by norm_num) z
  obtain ⟨s1, s2⟩ := scalePow2_spec num den (-((bitLog2 num : ℤ) - (bitLog2 den : ℤ))) hden
  unfold floorLog2
  simp only
  have s2q : (0 : ℚ) < ((scalePow2 num den (-((bitLog2 num : ℤ) - (bitLog2 den : ℤ)))).2 : ℚ) := by
    exact_mod_cast s1
  by_cases hge : (scalePow2 num den (-((bitLog2 num : ℤ) - (bitLog2 den : ℤ)))).1 ≥
      (scalePow2 num den (-((bitLog2 num : ℤ) - (bitLog2 den : ℤ)))).2
  · rw [if_pos hge]
    constructor
    · have h1 : (1 : ℚ) ≤ (num : ℚ) / den * (2 : ℚ) ^ (-((bitLog2 num : ℤ) - (bitLog2 den : ℤ))) := by
        rw [← s2, le_div_iff₀ s2q, one_mul]
        exact_mod_cast hge
      rw [zpow_neg, ← div_eq_mul_inv, le_div_iff₀ (hp _)] at h1
      linarith
    · rw [div_lt_iff₀ hdq]
      have e1 : (2 : ℚ) ^ ((bitLog2 num : ℤ) - (bitLog2 den : ℤ) + 1) =
          (2 : ℚ) ^ ((bitLog2 num : ℤ) + 1) / (2 : ℚ) ^ (bitLog2 den : ℤ) := by
        rw [← zpow_sub₀ h2]
        congr 1
        ring
      rw [e1, div_mul_eq_mul_div, lt_div_iff₀ (hp _)]
      calc (num : ℚ) * (2 : ℚ) ^ (bitLog2 den : ℤ)
          ≤ (num : ℚ) * den := by
            apply mul_le_mul_of_nonneg_left d1q (le_of_lt hnq)
        _ < (2 : ℚ) ^ ((bitLog2 num : ℤ) + 1) * den := by
            apply mul_lt_mul_of_pos_right n2q hdq
  · rw [if_neg hge]
    have hlt : (scalePow2 num den (-((bitLog2 num : ℤ) - (bitLog2 den : ℤ)))).1 <
        (scalePow2 num den (-((bitLog2 num : ℤ) - (bitLog2 den : ℤ)))).2 := by omega
    constructor
    · rw [le_div_iff₀ hdq]
      have e1 : (2 : ℚ) ^ ((bitLog2 num : ℤ) - (bitLog2 den : ℤ) - 1) =
          (2 : ℚ) ^ (bitLog2 num : ℤ) / (2 : ℚ) ^ ((bitLog2 den : ℤ) + 1) := by
        rw [← zpow_sub₀ h2]
        congr 1
        ring
      rw [e1, div_mul_eq_mul_div, div_le_iff₀ (hp _)]
      calc (2 : ℚ) ^ (bitLog2 num : ℤ) * den
          ≤ (num : ℚ) * den := by
            apply mul_le_mul_of_nonneg_right n1q (le_of_lt hdq)
        _ ≤ (num : ℚ) * (2 : ℚ) ^ ((bitLog2 den : ℤ) + 1) := by
            apply mul_le_mul_of_nonneg_left (le_of_lt d2q) (le_of_lt hnq)
    · have h1 : (num : ℚ) / den * (2 : ℚ) ^ (-((bitLog2 num : ℤ) - (bitLog2 den : ℤ))) < 1 := by
        rw [← s2, div_lt_iff₀ s2q, one_mul]
        exact_mod_cast hlt
      rw [zpow_neg, ← div_eq_mul_inv, div_lt_iff₀ (hp _)] at h1
      have e2 : (bitLog2 num : ℤ) - (bitLog2 den : ℤ) - 1 + 1 =
          (bitLog2 num : ℤ) - (bitLog2 den : ℤ) := by ring
      rw [e2]
      linarith

/-- Rounding to binary64 keeps the value within a relative error of `2^-53`. -/
theorem roundToFloat64_spec (num den : Nat) (hnum : 0 < num) (hden : 0 < den) :
    ∃ m, roundToFloat64 num den = Float64.finite m (floorLog2 num den - 52) ∧
      |(m : ℚ) * (2 : ℚ) ^ (floorLog2 num den - 52) - (num : ℚ) / (den : ℚ)| ≤
        (num : ℚ) / (den : ℚ) / 2 ^ 53 := by
  obtain ⟨l1, _⟩ := floorLog2_spec num den hnum hden
  obtain ⟨s1, s2⟩ := scalePow2_spec num den (52 - floorLog2 num den) hden
  have hr := roundHalfEven_spec (scalePow2 num den (52 - floorLog2 num den)).1
    (scalePow2 num den (52 - floorLog2 num den)).2 s1
  refine ⟨roundHalfEven (scalePow2 num den (52 - floorLog2 num den)).1
    (scalePow2 num den (52 - floorLog2 num den)).2, rfl, ?_⟩
  rw [s2] at hr
  have h2 : (2 : ℚ) ≠ 0 := by norm_num
  have hp : ∀ z : ℤ, (0 : ℚ) < (2 : ℚ) ^ z := fun z => zpow_pos (by norm_num) z
  set e := floorLog2 num den with he
  set x := (num : ℚ) / (den : ℚ) with hx
  set m := ((roundHalfEven (scalePow2 num den (52 - e)).1 (scalePow2 num den (52 - e)).2 : ℕ) : ℚ)
    with hm
  have hinv : (2 : ℚ) ^ (52 - e) * (2 : ℚ) ^ (e - 52) = 1 := by
    rw [← zpow_add₀ h2]
    have : 52 - e + (e - 52) = 0 := by ring
    rw [this, zpow_zero]
  have heq : m * (2 : ℚ) ^ (e - 52) - x = (m - x * (2 : ℚ) ^ (52 - e)) * (2 : ℚ) ^ (e - 52) := by
    rw [sub_mul, mul_assoc, hinv, mul_one]
  rw [heq, abs_mul, abs_of_pos (hp (e - 52))]
  have hsplit : (2 : ℚ) ^ (e - 52) = (2 : ℚ) ^ e / 2 ^ 52 := by
    rw [zpow_sub₀ h2]
    norm_cast
  calc |m - x * (2 : ℚ) ^ (52 - e)| * (2 : ℚ) ^ (e - 52)
      ≤ 1 / 2 * (2 : ℚ) ^ (e - 52) := by
        apply mul_le_mul_of_nonneg_right hr (le_of_lt (hp _))
    _ = (2 : ℚ) ^ e / 2 ^ 53 := by
        rw [hsplit]
        ring
    _ ≤ x / 2 ^ 53 := by
        apply div_le_div_of_nonneg_right l1
        positivity

theorem roundHalfEven_one (n : Nat) : roundHalfEven n 1 = n := by
  unfold roundHalfEven
  simp [Nat.mod_one]

/-- The conversion of a `uint` below `2^53` is exact. -/
theorem Float64.ofUint_spec (n : Nat) (h0 : 0 < n) (h53 : n < 2 ^ 53) :
    ∃ m e, Float64.ofUint n = Float64.finite m e ∧ 0 < m ∧ (m : ℚ) * (2 : ℚ) ^ e = n := by
  obtain ⟨l1, _⟩ := floorLog2_spec n 1 h0 (by decide)
  have h2 : (2 : ℚ) ≠ 0 := by norm_num
  have hp : ∀ z : ℤ, (0 : ℚ) < (2 : ℚ) ^ z := fun z => zpow_pos (by norm_num) z
  have hle : floorLog2 n 1 ≤ 52 := by
    by_contra hc
    have h53' : (53 : ℤ) ≤ floorLog2 n 1 := by omega
    have : (2 : ℚ) ^ (53 : ℤ) ≤ (2 : ℚ) ^ floorLog2 n 1 :=
      zpow_le_zpow_right₀ (by norm_num) h53'
    have hn : (n : ℚ) < 2 ^ 53 := by exact_mod_cast h53
    simp only [Nat.cast_one, div_one] at l1
    have : (2 : ℚ) ^ (53 : ℤ) ≤ n := le_trans this l1
    norm_num at this
    linarith
  have hk : 0 ≤ 52 - floorLog2 n 1 := by omega
  obtain ⟨s1, s2⟩ := scalePow2_spec n 1 (52 - floorLog2 n 1) (by decide)
  have hp2 : (scalePow2 n 1 (52 - floorLog2 n 1)).2 = 1 := by
    unfold scalePow2
    rw [if_pos hk]
  rw [hp2] at s2
  simp only [Nat.cast_one, div_one] at s2
  refine ⟨(scalePow2 n 1 (52 - floorLog2 n 1)).1, floorLog2 n 1 - 52, ?_, ?_, ?_⟩
  · unfold Float64.ofUint
    rw [if_neg (by omega)]
    unfold roundToFloat64
    simp only
    rw [hp2, roundHalfEven_one]
  · have hnq : (0 : ℚ) < n := by exact_mod_cast h0
    have : (0 : ℚ) < ((scalePow2 n 1 (52 - floorLog2 n 1)).1 : ℚ) := by
      rw [s2]
      exact mul_pos hnq (hp _)
    exact_mod_cast this
  · rw [s2, mul_assoc, ← zpow_add₀ h2]
    have : 52 - floorLog2 n 1 + (floorLog2 n 1 - 52) = 0 := by ring
    rw [this, zpow_zero, mul_one]

/-- The quotient of two positive `float64` values is the exact quotient rounded:
within a relative error of `2^-53`. -/
theorem Float64.div_spec (a b : Nat) (ea eb : Int) (ha : 0 < a) (hb : 0 < b) :
    ∃ m e, (Float64.finite a ea).div (Float64.finite b eb) = Float64.finite m e ∧
      |(m : ℚ) * (2 : ℚ) ^ e - (a : ℚ) * (2 : ℚ) ^ ea / ((b : ℚ) * (2 : ℚ) ^ eb)| ≤
        (a : ℚ) * (2 : ℚ) ^ ea / ((b : ℚ) * (2 : ℚ) ^ eb) / 2 ^ 53 := by
  obtain ⟨m, hm, hr⟩ := roundToFloat64_spec a b ha hb
  have h2 : (2 : ℚ) ≠ 0 := by norm_num
  have hp : ∀ z : ℤ, (0 : ℚ) < (2 : ℚ) ^ z := fun z => zpow_pos (by norm_num) z
  refine ⟨m, floorLog2 a b - 52 + ea - eb, ?_, ?_⟩
  · simp only [Float64.div, if_neg (Nat.pos_iff_ne_zero.mp hb),
      if_neg (Nat.pos_iff_ne_zero.mp ha), hm]
  · have hbq : (b : ℚ) ≠ 0 := by exact_mod_cast (Nat.pos_iff_ne_zero.mp hb)
    have e1 : (m : ℚ) * (2 : ℚ) ^ (floorLog2 a b - 52 + ea - eb) =
        (m : ℚ) * (2 : ℚ) ^ (floorLog2 a b - 52) * ((2 : ℚ) ^ ea / (2 : ℚ) ^ eb) := by
      rw [mul_assoc, ← zpow_sub₀ h2, ← zpow_add₀ h2]
      congr 2
      ring
    have e2 : (a : ℚ) * (2 : ℚ) ^ ea / ((b : ℚ) * (2 : ℚ) ^ eb) =
        (a : ℚ) / b * ((2 : ℚ) ^ ea / (2 : ℚ) ^ eb) := by
      field_simp
    have hs : (0 : ℚ) < (2 : ℚ) ^ ea / (2 : ℚ) ^ eb := div_pos (hp _) (hp _)
    rw [e1, e2, ← sub_mul, abs_mul, abs_of_pos hs, mul_div_right_comm]
    exact mul_le_mul_of_nonneg_right hr (le_of_lt hs)

/-- The product of two positive `float64` values is the exact product rounded:
within a relative error of `2^-53`. -/
theorem Float64.mul_spec (a b : Nat) (ea eb : Int) (ha : 0 < a) (hb : 0 < b) :
    ∃ m e, (Float64.finite a ea).mul (Float64.finite b eb) = Float64.finite m e ∧
      |(m : ℚ) * (2 : ℚ) ^ e - (a : ℚ) * (2 : ℚ) ^ ea * ((b : ℚ) * (2 : ℚ) ^ eb)| ≤
        (a : ℚ) * (2 : ℚ) ^ ea * ((b : ℚ) * (2 : ℚ) ^ eb) / 2 ^ 53 := by
  have hab : 0 < a * b := Nat.mul_pos ha hb
  obtain ⟨m, hm, hr⟩ := roundToFloat64_spec (a * b) 1 hab (by decide)
  have h2 : (2 : ℚ) ≠ 0 := by norm_num
  have hp : ∀ z : ℤ, (0 : ℚ) < (2 : ℚ) ^ z := fun z => zpow_pos (by norm_num) z
  refine ⟨m, floorLog2 (a * b) 1 - 52 + ea + eb, ?_, ?_⟩
  · simp only [Float64.mul, if_neg (Nat.pos_iff_ne_zero.mp hab), hm]
  · simp only [Nat.cast_one, div_one, Nat.cast_mul] at hr
    have e1 : (m : ℚ) * (2 : ℚ) ^ (floorLog2 (a * b) 1 - 52 + ea + eb) =
        (m : ℚ) * (2 : ℚ) ^ (floorLog2 (a * b) 1 - 52) * ((2 : ℚ) ^ ea * (2 : ℚ) ^ eb) := by
      rw [mul_assoc, ← zpow_add₀ h2, ← zpow_add₀ h2]
      congr 2
      ring
    have e2 : (a : ℚ) * (2 : ℚ) ^ ea * ((b : ℚ) * (2 : ℚ) ^ eb) =
        (a : ℚ) * b * ((2 : ℚ) ^ ea * (2 : ℚ) ^ eb) := by
      ring
    have hs : (0 : ℚ) < (2 : ℚ) ^ ea * (2 : ℚ) ^ eb := mul_pos (hp _) (hp _)
    rw [e1, e2, ← sub_mul, abs_mul, abs_of_pos hs, mul_div_right_comm]
    exact mul_le_mul_of_nonneg_right hr (le_of_lt hs)

/-- The conversion to `uint` is the integer part of the value, when it is below
`2^64`. -/
theorem Float64.toUint_spec (m : Nat) (e : Int) :
    (Float64.finite m e).toUint =
      if ⌊(m : ℚ) * (2 : ℚ) ^ e⌋₊ < 2 ^ 64 then some ⌊(m : ℚ) * (2 : ℚ) ^ e⌋₊ else none := by
  have hv : (if 0 ≤ e then m * 2 ^ e.toNat else m / 2 ^ (-e).toNat) =
      ⌊(m : ℚ) * (2 : ℚ) ^ e⌋₊ := by
    by_cases he : 0 ≤ e
    · rw [if_pos he]
      have : e = (e.toNat : ℤ) := (Int.toNat_of_nonneg he).symm
      rw [this, zpow_natCast]
      simp only [Int.toNat_ofNat]
      have : (m : ℚ) * (2 : ℚ) ^ e.toNat = ((m * 2 ^ e.toNat : ℕ) : ℚ) := by push_cast; ring
      rw [this, Nat.floor_natCast]
    · rw [if_neg he]
      have hk : e = -((-e).toNat : ℤ) := by
        have : 0 ≤ -e := by omega
        rw [Int.toNat_of_nonneg this]
        ring
      have : (m : ℚ) * (2 : ℚ) ^ e = (m : ℚ) / ((2 ^ (-e).toNat : ℕ) : ℚ) := by
        conv_lhs => rw [hk]
        rw [zpow_neg, zpow_natCast, div_eq_mul_inv]
        push_cast
        ring
      rw [this, Nat.floor_div_eq_div]
  unfold Float64.toUint
  simp only
  rw [hv]

theorem Float64.ofUint_finite (n : Nat) : ∃ m e, Float64.ofUint n = Float64.finite m e := by
  unfold Float64.ofUint
  by_cases h : n = 0
  · rw [if_pos h]
    exact ⟨0, 0, rfl⟩
  · rw [if_neg h]
    exact ⟨_, _, rfl⟩

theorem Float64.toUint_zero : (Float64.finite 0 0).toUint = some 0 := by decide

/-- The height `Resize` asks for is the exact quotient `h * T / w` rounded down,
or one less: never the next integer above. (For an image and a target width with
`h * T < 2^51` and `w < 2^53`.) -/
theorem dstHeight_bounds (env : Env) (w h T : Nat) (hw : 0 < w) (hw53 : w < 2 ^ 53)
    (hprod : h * T < 2 ^ 51) :
    dstHeight env w h T ≤ h * T / w ∧ h * T / w ≤ dstHeight env w h T + 1 := by
  obtain ⟨mw, ew, hfw, hmw, hvw⟩ := Float64.ofUint_spec w hw hw53
  unfold dstHeight
  rw [hfw]
  by_cases hT0 : T = 0
  · -- the quotient is zero
    subst hT0
    obtain ⟨mh, eh, hfh⟩ := Float64.ofUint_finite h
    have hq : (Float64.ofUint 0).div (Float64.finite mw ew) = Float64.finite 0 0 := by
      simp only [Float64.ofUint, if_true, Float64.div, if_neg (Nat.pos_iff_ne_zero.mp hmw)]
    rw [hq, hfh]
    have hm : (Float64.finite mh eh).mul (Float64.finite 0 0) = Float64.finite 0 0 := by
      simp only [Float64.mul, Nat.mul_zero, if_true]
    rw [hm, Float64.toUint_zero]
    simp
  by_cases hh0 : h = 0
  · -- the height is zero
    subst hh0
    obtain ⟨mT, eT, hfT⟩ := Float64.ofUint_finite T
    obtain ⟨mq, eq, hfq⟩ : ∃ m e, (Float64.finite mT eT).div (Float64.finite mw ew) =
        Float64.finite m e := by
      by_cases hm0 : mT = 0
      · exact ⟨0, 0, by
          simp only [Float64.div, if_neg (Nat.pos_iff_ne_zero.mp hmw), hm0, if_true]⟩
      · refine ⟨roundHalfEven (scalePow2 mT mw (52 - floorLog2 mT mw)).1
            (scalePow2 mT mw (52 - floorLog2 mT mw)).2, floorLog2 mT mw - 52 + eT - ew, ?_⟩
        simp only [Float64.div, if_neg (Nat.pos_iff_ne_zero.mp hmw), if_neg hm0,
          roundToFloat64]
    rw [hfT, hfq]
    have hm : (Float64.ofUint 0).mul (Float64.finite mq eq) = Float64.finite 0 0 := by
      simp only [Float64.ofUint, Float64.mul, Nat.zero_mul, if_true]
    rw [hm, Float64.toUint_zero]
    simp
  have hTpos : 0 < T := Nat.pos_of_ne_zero hT0
  have hhpos : 0 < h := Nat.pos_of_ne_zero hh0
  have hT53 : T < 2 ^ 53 := by
    have : T ≤ h * T := Nat.le_mul_of_pos_left T hhpos
    have : (2 : ℕ) ^ 51 < 2 ^ 53 := by norm_num
    omega
  have hh53 : h < 2 ^ 53 := by
    have : h ≤ h * T := Nat.le_mul_of_pos_right h hTpos
    have : (2 : ℕ) ^ 51 < 2 ^ 53 := by norm_num
    omega
  obtain ⟨mT, eT, hfT, hmT, hvT⟩ := Float64.ofUint_spec T hTpos hT53
  obtain ⟨mh, eh, hfh, hmh, hvh⟩ := Float64.ofUint_spec h hhpos hh53
  obtain ⟨mq, eq, hfq, hq⟩ := Float64.div_spec mT mw eT ew hmT hmw
  rw [hfT, hfh, hfq]
  rw [hvT, hvw] at hq
  -- the quotient is positive
  have hwq : (0 : ℚ) < w := by exact_mod_cast hw
  have hTq : (0 : ℚ) < T := by exact_mod_cast hTpos
  have hhq : (0 : ℚ) < h := by exact_mod_cast hhpos
  have hxq : (0 : ℚ) < (T : ℚ) / w := div_pos hTq hwq
  obtain ⟨hq1, hq2⟩ := abs_le.mp hq
  have hqpos : (0 : ℚ) < (mq : ℚ) * (2 : ℚ) ^ eq := by
    have : (T : ℚ) / w / 2 ^ 53 < (T : ℚ) / w := by
      apply div_lt_self hxq
      norm_num
    linarith
  have hmq : 0 < mq := by
    by_contra hc
    have : mq = 0 := by omega
    rw [this] at hqpos
    simp at hqpos
  obtain ⟨mp, ep, hfp, hp⟩ := Float64.mul_spec mh mq eh eq hmh hmq
  rw [hfp, Float64.toUint_spec]
  rw [hvh] at hp
  obtain ⟨hp1, hp2⟩ := abs_le.mp hp
  -- the exact quotient
  set q := (mq : ℚ) * (2 : ℚ) ^ eq with hqdef
  set p := (mp : ℚ) * (2 : ℚ) ^ ep with hpdef
  set x := (h : ℚ) * ((T : ℚ) / w) with hxdef
  have hxpos : 0 < x := mul_pos hhq hxq
  have hNq : ((h * T : ℕ) : ℚ) < 2 ^ 51 := by exact_mod_cast hprod
  have hw1 : (1 : ℚ) ≤ w := by exact_mod_cast hw
  have hxw : x * w = ((h * T : ℕ) : ℚ) := by
    rw [hxdef]
    push_cast
    field_simp
  -- u = x / 2^53 is small
  have hu : x / 2 ^ 53 * w < 1 / 4 := by
    rw [div_mul_eq_mul_div, hxw, div_lt_iff₀ (by norm_num)]
    have : (1 : ℚ) / 4 * 2 ^ 53 = 2 ^ 51 := by norm_num
    rw [this]
    exact hNq
  have hupos : 0 < x / 2 ^ 53 := div_pos hxpos (by norm_num)
  -- h * q is within x / 2^53 of x
  have hhq1 : x - x / 2 ^ 53 ≤ (h : ℚ) * q := by
    have : (h : ℚ) * ((T : ℚ) / w - (T : ℚ) / w / 2 ^ 53) ≤ (h : ℚ) * q :=
      mul_le_mul_of_nonneg_left (by linarith) (le_of_lt hhq)
    have e : (h : ℚ) * ((T : ℚ) / w - (T : ℚ) / w / 2 ^ 53) = x - x / 2 ^ 53 := by
      rw [hxdef]; ring
    linarith
  have hhq2 : (h : ℚ) * q ≤ x + x / 2 ^ 53 := by
    have : (h : ℚ) * q ≤ (h : ℚ) * ((T : ℚ) / w + (T : ℚ) / w / 2 ^ 53) :=
      mul_le_mul_of_nonneg_left (by linarith) (le_of_lt hhq)
    have e : (h : ℚ) * ((T : ℚ) / w + (T : ℚ) / w / 2 ^ 53) = x + x / 2 ^ 53 := by
      rw [hxdef]; ring
    linarith
  have hyd1 : (h : ℚ) * q / 2 ^ 53 ≤ (x + x / 2 ^ 53) / 2 ^ 53 :=
    div_le_div_of_nonneg_right hhq2 (by norm_num)
  have hyd2 : (x + x / 2 ^ 53) / 2 ^ 53 ≤ 2 * (x / 2 ^ 53) := by
    have : x / 2 ^ 53 / 2 ^ 53 ≤ x / 2 ^ 53 := by
      apply div_le_self (le_of_lt hupos)
      norm_num
    have e : (x + x / 2 ^ 53) / 2 ^ 53 = x / 2 ^ 53 + x / 2 ^ 53 / 2 ^ 53 := by ring
    linarith
  -- bounds on p
  have hpU : p ≤ x + 3 * (x / 2 ^ 53) := by linarith
  have hpL : x - 3 * (x / 2 ^ 53) ≤ p := by linarith
  -- the integer quotient
  have hdm : w * (h * T / w) + h * T % w = h * T := Nat.div_add_mod (h * T) w
  have hmod : h * T % w < w := Nat.mod_lt _ hw
  have hdmq : (w : ℚ) * ((h * T / w : ℕ) : ℚ) + ((h * T % w : ℕ) : ℚ) = x * w := by
    rw [hxw]
    exact_mod_cast hdm
  have hmodq : ((h * T % w : ℕ) : ℚ) + 1 ≤ w := by exact_mod_cast hmod
  have hmod0 : (0 : ℚ) ≤ ((h * T % w : ℕ) : ℚ) := by exact_mod_cast Nat.zero_le _
  -- p < k + 1
  have hlt : p < ((h * T / w : ℕ) : ℚ) + 1 := by
    have h1 : p * w ≤ (x + 3 * (x / 2 ^ 53)) * w :=
      mul_le_mul_of_nonneg_right hpU (le_of_lt hwq)
    have h2 : (x + 3 * (x / 2 ^ 53)) * w = x * w + 3 * (x / 2 ^ 53 * w) := by ring
    have h3 : p * w < (((h * T / w : ℕ) : ℚ) + 1) * w := by
      have : (((h * T / w : ℕ) : ℚ) + 1) * w = (w : ℚ) * ((h * T / w : ℕ) : ℚ) + w := by ring
      linarith
    exact lt_of_mul_lt_mul_right h3 (le_of_lt hwq)
  -- k - 1 < p
  have hgt : ((h * T / w : ℕ) : ℚ) - 1 < p := by
    have h1 : (x - 3 * (x / 2 ^ 53)) * w ≤ p * w :=
      mul_le_mul_of_nonneg_right hpL (le_of_lt hwq)
    have h2 : (x - 3 * (x / 2 ^ 53)) * w = x * w - 3 * (x / 2 ^ 53 * w) := by ring
    have h3 : (((h * T / w : ℕ) : ℚ) - 1) * w < p * w := by
      have : (((h * T / w : ℕ) : ℚ) - 1) * w = (w : ℚ) * ((h * T / w : ℕ) : ℚ) - w := by ring
      linarith
    exact lt_of_mul_lt_mul_right h3 (le_of_lt hwq)
  have hp0 : 0 ≤ p := by
    rw [hpdef]
    positivity
  have hfl1 : ⌊p⌋₊ ≤ h * T / w := by
    have : ⌊p⌋₊ < h * T / w + 1 := by
      rw [Nat.floor_lt hp0]
      exact_mod_cast hlt
    omega
  have hfl2 : h * T / w ≤ ⌊p⌋₊ + 1 := by
    by_cases hk : h * T / w = 0
    · omega
    · have hk1 : 1 ≤ h * T / w := Nat.one_le_iff_ne_zero.mpr hk
      have : h * T / w - 1 ≤ ⌊p⌋₊ := by
        apply Nat.le_floor
        rw [Nat.cast_sub hk1]
        push_cast
        exact le_of_lt hgt
      omega
  have hrange : ⌊p⌋₊ < 2 ^ 64 := by
    have : h * T / w ≤ h * T := Nat.div_le_self _ _
    have : (2 : ℕ) ^ 51 < 2 ^ 64 := by norm_num
    omega
  rw [if_pos hrange]
  exact ⟨hfl1, hfl2⟩


/-! ## The dimensions of the resized image -/

/-- C4, counterexample: for a 300x400 image and target width 200 the exact
quotient is 266.67 and its nearest integer is 267, but `Resize` asks the wand for
200x266 and never for 200x267. -/
theorem Resize_height_not_nearest :
    nearestHeight 400 200 300 = 267 ∧
      sampleResizer.width = 200 ∧
      Effect.ResizeImage 200 266 ∈
        (respond (sampleEnv 300 400) sampleResizer ⟨str "GET", str "/photo.jpg"⟩).calls ∧
      Effect.ResizeImage 200 267 ∉
        (respond (sampleEnv 300 400) sampleResizer ⟨str "GET", str "/photo.jpg"⟩).calls := by
  set_option maxRecDepth 8000 in decide

/-- The truncated `float64` product can be one below the exact quotient even
when the quotient is an integer: for a 29x145 image and target width 200 the
quotient is exactly 1000 and the height computed is 999. -/
theorem dstHeight_below_quotient (env : Env) :
    145 * 200 / 29 = 1000 ∧ 145 * 200 % 29 = 0 ∧ dstHeight env 29 145 200 = 999 := by
  have h : ((Float64.ofUint 145).mul
      ((Float64.ofUint 200).div (Float64.ofUint 29))).toUint = some 999 := by
    set_option maxRecDepth 8000 in decide
  refine ⟨by decide, by decide, ?_⟩
  unfold dstHeight
  rw [h]

/-- C4, amended: for every `GET` request with an allowed extension whose image
the loader reads, `Resize` calls `ResizeImage` exactly once, with the configured
width and with the height `dstHeight`: the `float64` product of the height with
the `float64` quotient of the target width by the width of the image, converted
to `uint`, that is with its fraction discarded and not rounded to nearest. The
call follows the reads of the width and of the height of the image. For an image
of width `w > 0` below `2^53` and height `h` with `h * T < 2^51`, this height is
the exact quotient `h * T / w` rounded down or one less, never more. -/
theorem Resize_dimensions (env : Env) (rsz : Resizer) (r : Request) (t : GoString)
    (hGET : r.Method = str "GET") (hext : Ext (srcFile rsz r) = dot :: t)
    (ht : t ∈ allowed) (hload : (readImage env (srcFile rsz r)).1 = none) :
    (∃ rest, (respond env rsz r).calls =
      Effect.NewMagickWand :: (readImage env (srcFile rsz r)).2 ++
        [Effect.GetImageWidth, Effect.GetImageHeight,
          Effect.ResizeImage rsz.width
            (dstHeight env (env.GetImageWidth (srcFile rsz r))
              (env.GetImageHeight (srcFile rsz r)) rsz.width)] ++ rest ∧
      ∀ cols rows, Effect.ResizeImage cols rows ∉ rest) ∧
    (∀ cols rows, Effect.ResizeImage cols rows ∈ (respond env rsz r).calls →
      cols = rsz.width ∧
      rows = dstHeight env (env.GetImageWidth (srcFile rsz r))
        (env.GetImageHeight (srcFile rsz r)) rsz.width) ∧
    dstHeight env (env.GetImageWidth (srcFile rsz r)) (env.GetImageHeight (srcFile rsz r))
        rsz.width =
      (((Float64.ofUint (env.GetImageHeight (srcFile rsz r))).mul
        ((Float64.ofUint rsz.width).div
          (Float64.ofUint (env.GetImageWidth (srcFile rsz r))))).toUint).getD
        env.uintOutOfRange ∧
    (0 < env.GetImageWidth (srcFile rsz r) → env.GetImageWidth (srcFile rsz r) < 2 ^ 53 →
      env.GetImageHeight (srcFile rsz r) * rsz.width < 2 ^ 51 →
      dstHeight env (env.GetImageWidth (srcFile rsz r)) (env.GetImageHeight (srcFile rsz r))
          rsz.width ≤
        env.GetImageHeight (srcFile rsz r) * rsz.width / env.GetImageWidth (srcFile rsz r) ∧
      env.GetImageHeight (srcFile rsz r) * rsz.width / env.GetImageWidth (srcFile rsz r) ≤
        dstHeight env (env.GetImageWidth (srcFile rsz r))
          (env.GetImageHeight (srcFile rsz r)) rsz.width + 1) := by
  have hal : isImageTypeAllowed t = true := (isImageTypeAllowed_iff t).mpr ht
  have hrd2 : ∀ cols rows, Effect.ResizeImage cols rows ∉ (readImage env (srcFile rsz r)).2 := by
    intro cols rows
    unfold readImage
    split
    · split <;> simp
    · split <;> simp
  have hex : ∃ rest, (respond env rsz r).calls =
      Effect.NewMagickWand :: (readImage env (srcFile rsz r)).2 ++
        [Effect.GetImageWidth, Effect.GetImageHeight,
          Effect.ResizeImage rsz.width
            (dstHeight env (env.GetImageWidth (srcFile rsz r))
              (env.GetImageHeight (srcFile rsz r)) rsz.width)] ++ rest ∧
      ∀ cols rows, Effect.ResizeImage cols rows ∉ rest := by
    unfold respond
    rw [Resize_of_loaded env Recorder.writer rsz Recorder.new r dot t hGET hext hal hload]
    simp only [ioCopy_recorder]
    split
    · exact ⟨[Effect.Destroy], by simp, by simp⟩
    · split
      · exact ⟨[Effect.GetImageBlob, Effect.Destroy], by simp, by simp⟩
      · exact ⟨[Effect.GetImageBlob, Effect.Destroy], by simp, by simp⟩
  refine ⟨hex, ?_, ?_, fun h1 h2 h3 => dstHeight_bounds env _ _ _ h1 h2 h3⟩
  · obtain ⟨rest, hcalls, hrest⟩ := hex
    intro cols rows hmem
    rw [hcalls] at hmem
    simp only [List.cons_append, List.mem_cons, List.mem_append, List.mem_singleton,
      List.not_mem_nil, or_false, Effect.ResizeImage.injEq, false_or, reduceCtorEq] at hmem
    rcases hmem with (h | h) | h
    · exact absurd h (hrd2 cols rows)
    · exact h
    · exact absurd h (hrest cols rows)
  · unfold dstHeight
    cases ((Float64.ofUint (env.GetImageHeight (srcFile rsz r))).mul
        ((Float64.ofUint rsz.width).div
          (Float64.ofUint (env.GetImageWidth (srcFile rsz r))))).toUint <;> rfl

/-- Witness of C4, amended: in the sample world with a 400x300 `photo.jpg` the
wand is asked for 200x150, and with a 300x400 one for 200x266, which is the
quotient `400 * 200 / 300` rounded down. -/
theorem Resize_dimensions_witness :
    Effect.ResizeImage 200 150 ∈
        (respond (sampleEnv 400 300) sampleResizer ⟨str "GET", str "/photo.jpg"⟩).calls ∧
      (200 = sampleResizer.width ∧ 150 = dstHeight (sampleEnv 400 300) 400 300 200) ∧
      Effect.ResizeImage 200 266 ∈
        (respond (sampleEnv 300 400) sampleResizer ⟨str "GET", str "/photo.jpg"⟩).calls ∧
      (200 = sampleResizer.width ∧ 266 = dstHeight (sampleEnv 300 400) 300 400 200) ∧
      dstHeight (sampleEnv 300 400) 300 400 200 ≤ 400 * 200 / 300 :=
  ⟨by set_option maxRecDepth 8000 in decide,
    (Resize_dimensions (sampleEnv 400 300) sampleResizer
      ⟨str "GET", str "/photo.jpg"⟩ (str "jpg") (by decide) (by decide) (by decide)
      (by decide)).2.1 200 150 (by set_option maxRecDepth 8000 in decide),
    by set_option maxRecDepth 8000 in decide,
    (Resize_dimensions (sampleEnv 300 400) sampleResizer
      ⟨str "GET", str "/photo.jpg"⟩ (str "jpg") (by decide) (by decide) (by decide)
      (by decide)).2.1 200 266 (by set_option maxRecDepth 8000 in decide),
    ((Resize_dimensions (sampleEnv 300 400) sampleResizer
      ⟨str "GET", str "/photo.jpg"⟩ (str "jpg") (by decide) (by decide) (by decide)
      (by decide)).2.2.2 (by decide) (by decide) (by decide)).1⟩

/-! ## The response observer -/

theorem wrapInt_of_fits (x : Int) (h1 : -2 ^ 63 ≤ x) (h2 : x < 2 ^ 63) : wrapInt x = x := by
  unfold wrapInt
  omega

/-- The counter wraps: from `MaxInt64`, a `Write` that returns `MaxInt64` leaves
`n = -2`. -/
theorem responseAnalysis_Write_wraps {σ : Type} (W : ResponseWriter σ)
    (ra : responseAnalysis σ) (b : List Byte) (hn : ra.n = 2 ^ 63 - 1)
    (hc : (W.Write ra.w b).2.1 = 2 ^ 63 - 1) : (ra.Write W b).1.n = -2 := by
  simp only [responseAnalysis.Write, hn, hc]
  decide

/-- The observer forwards every call: from any observer state, the calls leave
the underlying writer as if made on it directly, and the `Write` results are the
underlying writer's. -/
theorem runObserver_eq {σ : Type} (W : ResponseWriter σ) (calls : List Call)
    (ra : responseAnalysis σ) :
    (runObserver W calls ra).1.w = (runWriter W calls ra.w).1 ∧
      (runObserver W calls ra).2 = (runWriter W calls ra.w).2 := by
  induction calls generalizing ra with
  | nil => simp [runObserver, runWriter]
  | cons c calls ih =>
    cases c with
    | Write b =>
      obtain ⟨h1, h2⟩ := ih (ra.Write W b).1
      simp only [runObserver, runWriter]
      refine ⟨h1, ?_⟩
      rw [h2]
      rfl
    | WriteHeader code =>
      obtain ⟨h1, h2⟩ := ih (ra.WriteHeader W code)
      simp only [runObserver, runWriter]
      exact ⟨h1, h2⟩

/-- While the running totals fit an `int`, `n` grows by the sum of the counts
returned. -/
theorem runObserver_n {σ : Type} (W : ResponseWriter σ) (calls : List Call)
    (ra : responseAnalysis σ)
    (hfit : totalsFit ra.n ((runWriter W calls ra.w).2.map Prod.fst) = true) :
    (runObserver W calls ra).1.n = ra.n + ((runWriter W calls ra.w).2.map Prod.fst).sum := by
  induction calls generalizing ra with
  | nil => simp [runObserver, runWriter]
  | cons c calls ih =>
    cases c with
    | Write b =>
      simp only [runWriter, List.map_cons, totalsFit, Bool.and_eq_true,
        decide_eq_true_eq] at hfit
      obtain ⟨⟨f1, f2⟩, hrest⟩ := hfit
      have hn : (ra.Write W b).1.n = ra.n + (W.Write ra.w b).2.1 := by
        simp only [responseAnalysis.Write]
        exact wrapInt_of_fits _ f1 f2
      have hw : (ra.Write W b).1.w = (W.Write ra.w b).1 := rfl
      have := ih (ra.Write W b).1 (by rw [hn, hw]; exact hrest)
      simp only [runObserver, runWriter, List.map_cons, List.sum_cons]
      rw [this, hn, hw]
      omega
    | WriteHeader code =>
      simp only [runWriter] at hfit
      have := ih (ra.WriteHeader W code) hfit
      simp only [runObserver, runWriter]
      exact this

theorem runWriter_append {σ : Type} (W : ResponseWriter σ) (calls1 calls2 : List Call)
    (w : σ) :
    runWriter W (calls1 ++ calls2) w =
      ((runWriter W calls2 (runWriter W calls1 w).1).1,
        (runWriter W calls1 w).2 ++ (runWriter W calls2 (runWriter W calls1 w).1).2) := by
  induction calls1 generalizing w with
  | nil => simp [runWriter]
  | cons c calls1 ih =>
    cases c with
    | Write b => simp [runWriter, ih]
    | WriteHeader code => simp [runWriter, ih]

theorem totalsFit_append (n : Int) (a b : List Int) (h : totalsFit n (a ++ b) = true) :
    totalsFit n a = true ∧ totalsFit (n + a.sum) b = true := by
  induction a generalizing n with
  | nil => simpa [totalsFit] using h
  | cons c a ih =>
    simp only [List.cons_append, totalsFit, Bool.and_eq_true, decide_eq_true_eq] at h ⊢
    obtain ⟨hc, hrest⟩ := h
    obtain ⟨h1, h2⟩ := ih (n + c) hrest
    refine ⟨⟨hc, h1⟩, ?_⟩
    rw [List.sum_cons, ← Int.add_assoc]
    exact h2

theorem sum_nonneg_of_forall (l : List Int) (h : ∀ x ∈ l, 0 ≤ x) : 0 ≤ l.sum := by
  induction l with
  | nil => simp
  | cons a l ih =>
    rw [List.sum_cons]
    have h1 := h a (List.mem_cons_self a l)
    have h2 := ih (fun x hx => h x (List.mem_cons_of_mem a hx))
    omega

/-- C9: for every underlying writer, every observer made by `AnalyzeResponse`
and every sequence of `Write` and `WriteHeader` calls on it: the underlying
writer receives the same calls; each `Write` returns the underlying writer's
`(count, error)` pair unchanged and adds the returned count (not the length of
the bytes requested) to `n` in `int` arithmetic; `WriteHeader` leaves `n`
unchanged. Hence, as long as the running total of the counts stays within the
range of `int` (as it does for every response: a writer returns counts between 0
and the length requested), the recorded `n` is the sum of the counts the
underlying `Write` calls returned, and `n` does not decrease over further calls
whose returned counts are all non-negative. -/
theorem responseAnalysis_byte_count {σ : Type} (W : ResponseWriter σ) (w : σ)
    (calls : List Call) :
    (runObserver W calls (AnalyzeResponse w)).1.w = (runWriter W calls w).1 ∧
      (runObserver W calls (AnalyzeResponse w)).2 = (runWriter W calls w).2 ∧
      (totalsFit 0 ((runWriter W calls w).2.map Prod.fst) = true →
        (runObserver W calls (AnalyzeResponse w)).1.n =
          ((runWriter W calls w).2.map Prod.fst).sum) ∧
      (∀ (ra : responseAnalysis σ) (b : List Byte),
        (ra.Write W b).2 = (W.Write ra.w b).2 ∧
        (ra.Write W b).1.n = wrapInt (ra.n + (W.Write ra.w b).2.1) ∧
        (-2 ^ 63 ≤ ra.n + (W.Write ra.w b).2.1 → ra.n + (W.Write ra.w b).2.1 < 2 ^ 63 →
          (ra.Write W b).1.n = ra.n + (W.Write ra.w b).2.1)) ∧
      (∀ (ra : responseAnalysis σ) (statusCode : Int),
        (ra.WriteHeader W statusCode).n = ra.n) ∧
      (∀ more : List Call,
        totalsFit 0 ((runWriter W (calls ++ more) w).2.map Prod.fst) = true →
        (∀ p ∈ (runWriter W more (runWriter W calls w).1).2, 0 ≤ p.1) →
        (runObserver W calls (AnalyzeResponse w)).1.n ≤
          (runObserver W (calls ++ more) (AnalyzeResponse w)).1.n) := by
  obtain ⟨h1, h2⟩ := runObserver_eq W calls (AnalyzeResponse w)
  refine ⟨h1, h2, ?_, fun ra b => ⟨rfl, rfl, fun f1 f2 => wrapInt_of_fits _ f1 f2⟩,
    fun ra c => rfl, ?_⟩
  · intro hfit
    rw [runObserver_n W calls (AnalyzeResponse w) hfit]
    simp [AnalyzeResponse]
  · intro more hfit hmore
    have hfit1 : totalsFit 0 ((runWriter W calls w).2.map Prod.fst) = true := by
      rw [runWriter_append, List.map_append] at hfit
      exact (totalsFit_append 0 _ _ hfit).1
    rw [runObserver_n W calls (AnalyzeResponse w) hfit1,
      runObserver_n W (calls ++ more) (AnalyzeResponse w) hfit]
    simp only [AnalyzeResponse, runWriter_append, List.map_append, List.sum_append]
    have hnn : 0 ≤ ((runWriter W more (runWriter W calls w).1).2.map Prod.fst).sum := by
      apply sum_nonneg_of_forall
      intro x hx
      obtain ⟨p, hp, rfl⟩ := List.mem_map.mp hx
      exact hmore p hp
    omega

/-- Witness of C9: on the recorder, after `Write` of 3 bytes, `WriteHeader(404)`
and `Write` of 2 bytes the observer has counted 5 bytes, and it had counted 3
after the first call. On a writer that accepts 2 bytes per call, after `Write` of
3 bytes and `Write` of 1 byte the observer has counted the 3 bytes written, not
the 4 requested, and the first `Write` returned the count 2 with the writer's
error. -/
theorem responseAnalysis_byte_count_witness :
    (runObserver Recorder.writer
        [Call.Write [1, 2, 3], Call.WriteHeader 404, Call.Write [4, 5]]
        (AnalyzeResponse Recorder.new)).1.n = 5 ∧
      (runObserver Recorder.writer [Call.Write [1, 2, 3]] (AnalyzeResponse Recorder.new)).1.n ≤
        (runObserver Recorder.writer
          ([Call.Write [1, 2, 3]] ++ [Call.WriteHeader 404, Call.Write [4, 5]])
          (AnalyzeResponse Recorder.new)).1.n ∧
      (runObserver (limitedWriter 2) [Call.Write [1, 2, 3], Call.Write [4]]
        (AnalyzeResponse [])).1.n = 3 ∧
      (runObserver (limitedWriter 2) [Call.Write [1, 2, 3], Call.Write [4]]
        (AnalyzeResponse [])).2 = [(2, some (GoError.Other 1)), (1, none)] :=
  ⟨((responseAnalysis_byte_count Recorder.writer Recorder.new
      [Call.Write [1, 2, 3], Call.WriteHeader 404, Call.Write [4, 5]]).2.2.1
      (by decide)).trans (by decide),
    (responseAnalysis_byte_count Recorder.writer Recorder.new [Call.Write [1, 2, 3]]).2.2.2.2.2
      [Call.WriteHeader 404, Call.Write [4, 5]] (by decide) (by decide),
    ((responseAnalysis_byte_count (limitedWriter 2) []
      [Call.Write [1, 2, 3], Call.Write [4]]).2.2.1 (by decide)).trans (by decide),
    (responseAnalysis_byte_count (limitedWriter 2) []
      [Call.Write [1, 2, 3], Call.Write [4]]).2.1.trans (by decide)⟩

/-- The recorded status after a sequence of calls: the code of the most recent
`WriteHeader`, or the one recorded before when there was none. -/
theorem runObserver_status {σ : Type} (W : ResponseWriter σ) (calls : List Call)
    (ra : responseAnalysis σ) :
    (runObserver W calls ra).1.status = (lastWriteHeader calls).getD ra.status := by
  induction calls generalizing ra with
  | nil => rfl
  | cons c calls ih =>
    cases c with
    | Write b =>
      simp only [runObserver, lastWriteHeader]
      rw [ih]
      rfl
    | WriteHeader code =>
      simp only [runObserver, lastWriteHeader]
      rw [ih]
      cases lastWriteHeader calls <;> rfl

/-- C10: for every underlying writer, every observer made by `AnalyzeResponse`
and every sequence of `Write` and `WriteHeader` calls on it: `Status()` returns
200 if `WriteHeader` was never called, however many `Write` calls happened;
otherwise it returns the status code passed to the most recent `WriteHeader`
call, for every status code other than 0, hence for every code an
`http.ResponseWriter` admits (100 to 999; the zero value of the field `status`
stands for "not set"). `WriteHeader` records its code and forwards it unchanged
to the underlying writer, which receives the same calls, and `Write` does not
change the recorded status. -/
theorem responseAnalysis_Status {σ : Type} (W : ResponseWriter σ) (w : σ)
    (calls : List Call) :
    (lastWriteHeader calls = none →
        (runObserver W calls (AnalyzeResponse w)).1.Status = 200) ∧
      (∀ c, lastWriteHeader calls = some c → c ≠ 0 →
        (runObserver W calls (AnalyzeResponse w)).1.Status = c) ∧
      (∀ c, lastWriteHeader calls = some c → 100 ≤ c → c ≤ 999 →
        (runObserver W calls (AnalyzeResponse w)).1.Status = c) ∧
      (∀ (ra : responseAnalysis σ) (statusCode : Int),
        (ra.WriteHeader W statusCode).w = W.WriteHeader ra.w statusCode ∧
        (ra.WriteHeader W statusCode).status = statusCode) ∧
      (runObserver W calls (AnalyzeResponse w)).1.w = (runWriter W calls w).1 ∧
      (∀ (ra : responseAnalysis σ) (b : List Byte),
        (ra.Write W b).1.status = ra.status ∧ (ra.Write W b).1.Status = ra.Status) := by
  have hst := runObserver_status W calls (AnalyzeResponse w)
  have h2 : ∀ c, lastWriteHeader calls = some c → c ≠ 0 →
      (runObserver W calls (AnalyzeResponse w)).1.Status = c := by
    intro c h hc
    rw [h] at hst
    unfold responseAnalysis.Status
    rw [hst]
    simp [hc]
  refine ⟨?_, h2, fun c h h100 _ => h2 c h (by omega), fun ra c => ⟨rfl, rfl⟩,
    (runObserver_eq W calls (AnalyzeResponse w)).1, fun ra b => ⟨rfl, rfl⟩⟩
  intro h
  rw [h] at hst
  unfold responseAnalysis.Status
  rw [hst]
  rfl

/-- Witness of C10: with no `WriteHeader` among two `Write` calls the status is
200; after `WriteHeader(404)`, `Write`, `WriteHeader(500)` it is 500. -/
theorem responseAnalysis_Status_witness :
    (runObserver Recorder.writer [Call.Write [1], Call.Write [2]]
        (AnalyzeResponse Recorder.new)).1.Status = 200 ∧
      (runObserver Recorder.writer
        [Call.WriteHeader 404, Call.Write [1], Call.WriteHeader 500]
        (AnalyzeResponse Recorder.new)).1.Status = 500 :=
  ⟨(responseAnalysis_Status Recorder.writer Recorder.new
      [Call.Write [1], Call.Write [2]]).1 (by decide),
    (responseAnalysis_Status Recorder.writer Recorder.new
      [Call.WriteHeader 404, Call.Write [1], Call.WriteHeader 500]).2.1 500 (by decide)
      (by decide)⟩

/-! ## `path.Clean`: the buffer -/

theorem take_set_succ (l : List Byte) (w : Nat) (c : Byte) (h : w < l.length) :
    (l.set w c).take (w + 1) = l.take w ++ [c] := by
  induction l generalizing w with
  | nil => simp at h
  | cons a l ih =>
    cases w with
    | zero => simp
    | succ w =>
      simp only [List.length_cons, Nat.add_lt_add_iff_right] at h
      simp [ih w h]

theorem getD_take_of_lt (l : List Byte) (i w : Nat) (d : Byte) (h : i < w) :
    (l.take w).getD i d = l.getD i d := by
  simp [List.getD, List.getElem?_take, h]

theorem lazybuf.string_length (b : lazybuf) (h : b.WF) : b.string.length = b.w := by
  obtain ⟨h1, h2⟩ := h
  unfold lazybuf.string
  cases hb : b.buf with
  | none => simp [h1]
  | some buf => simp [h2 buf hb, h1]

theorem lazybuf.index_eq (b : lazybuf) (i : Nat) (hi : i < b.w) :
    b.index i = b.string.getD i 0 := by
  unfold lazybuf.index lazybuf.string
  cases b.buf with
  | none => simp only; rw [getD_take_of_lt _ _ _ _ hi]
  | some buf => simp only; rw [getD_take_of_lt _ _ _ _ hi]

theorem lazybuf.append_spec (b : lazybuf) (c : Byte) (h : b.WF) (hw : b.w < b.s.length) :
    (b.append c).WF ∧ (b.append c).string = b.string ++ [c] ∧ (b.append c).s = b.s ∧
      (b.append c).w = b.w + 1 := by
  obtain ⟨h1, h2⟩ := h
  unfold lazybuf.append
  cases hb : b.buf with
  | none =>
    simp only
    by_cases hc : b.w < b.s.length ∧ b.s.getD b.w 0 = c
    · rw [if_pos hc]
      refine ⟨⟨hw, ?_⟩, ?_, rfl, rfl⟩
      · intro buf hbuf
        simp [hb] at hbuf
      · simp only [lazybuf.string, hb]
        rw [List.take_succ]
        have : b.s[b.w]? = some c := by
          have := hc.2
          rw [List.getD_eq_getElem _ _ hw] at this
          rw [List.getElem?_eq_getElem hw, this]
        rw [this]
        rfl
    · rw [if_neg hc]
      refine ⟨⟨hw, ?_⟩, ?_, rfl, rfl⟩
      · intro buf hbuf
        simp only [Option.some.injEq] at hbuf
        rw [← hbuf]
        simp
        omega
      · simp only [lazybuf.string, hb]
        rw [take_set_succ _ _ _ (by simp; omega)]
        congr 1
        rw [List.take_append_of_le_length (by simp; omega)]
        simp
  | some buf =>
    simp only
    have hl := h2 buf hb
    refine ⟨⟨hw, ?_⟩, ?_⟩
    · intro buf1 hbuf
      simp only [Option.some.injEq] at hbuf
      rw [← hbuf]
      simp [hl]
    · simp only [lazybuf.string, hb]
      have hlt : b.w < buf.length := by omega
      exact ⟨take_set_succ buf b.w c hlt, trivial, trivial⟩

theorem btIndex_le (d : Nat) (l : GoString) (k : Nat) : btIndex d l k ≤ k := by
  induction k with
  | zero => simp [btIndex]
  | succ k ih =>
    unfold btIndex
    split
    · omega
    · omega

theorem backtrackLoop_eq (d : Nat) (out : lazybuf) (k : Nat) (hk : k < out.w) :
    backtrackLoop d out k = { out with w := btIndex d out.string k } := by
  induction k with
  | zero => rfl
  | succ k ih =>
    unfold backtrackLoop btIndex
    rw [lazybuf.index_eq out (k + 1) hk]
    by_cases hc : k + 1 > d ∧ out.string.getD (k + 1) 0 ≠ slash
    · rw [if_pos hc, if_pos hc]
      exact ih (by omega)
    · rw [if_neg hc, if_neg hc]

theorem lazybuf.setw_spec (out : lazybuf) (h : out.WF) (k : Nat) (hk : k ≤ out.w) :
    ({ out with w := k } : lazybuf).WF ∧
      ({ out with w := k } : lazybuf).string = out.string.take k := by
  obtain ⟨h1, h2⟩ := h
  refine ⟨⟨by simp only; omega, h2⟩, ?_⟩
  unfold lazybuf.string
  cases out.buf with
  | none => simp only [List.take_take]; rw [Nat.min_eq_left hk]
  | some buf => simp only [List.take_take]; rw [Nat.min_eq_left hk]

theorem backtrack_spec (d : Nat) (out : lazybuf) (h : out.WF) (hw : 0 < out.w) :
    (backtrack d out).WF ∧ (backtrack d out).string = backtrackList d out.string ∧
      (backtrack d out).s = out.s ∧ (backtrack d out).w < out.w := by
  unfold backtrack backtrackList
  rw [backtrackLoop_eq d out (out.w - 1) (by omega), lazybuf.string_length out h]
  have hle := btIndex_le d out.string (out.w - 1)
  obtain ⟨hwf, hstr⟩ := lazybuf.setw_spec out h (btIndex d out.string (out.w - 1)) (by omega)
  exact ⟨hwf, hstr, rfl, by simp only; omega⟩

theorem copyElem_spec (rest : GoString) : ∀ (out : lazybuf), out.WF →
    out.w + rest.length ≤ out.s.length →
    (copyElem out rest).1.WF ∧
      (copyElem out rest).1.string = (copyElemList out.string rest).1 ∧
      (copyElem out rest).2 = (copyElemList out.string rest).2 ∧
      (copyElem out rest).1.s = out.s ∧
      (copyElem out rest).1.w + (copyElem out rest).2.length = out.w + rest.length ∧
      ((copyElem out rest).2 = [] ∨ (copyElem out rest).2.head? = some slash) := by
  induction rest with
  | nil =>
    intro out h _
    exact ⟨h, rfl, rfl, rfl, rfl, Or.inl rfl⟩
  | cons c t ih =>
    intro out h hcap
    unfold copyElem copyElemList
    by_cases hc : c = slash
    · rw [if_pos hc, if_pos hc]
      exact ⟨h, rfl, rfl, rfl, rfl, Or.inr (by simp [hc])⟩
    · rw [if_neg hc, if_neg hc]
      simp only [List.length_cons] at hcap
      obtain ⟨a1, a2, a3, a4⟩ := lazybuf.append_spec out c h (by omega)
      obtain ⟨b1, b2, b3, b4, b5, b6⟩ := ih (out.append c) a1 (by rw [a3, a4]; omega)
      rw [a2] at b2
      refine ⟨b1, b2, ?_, by rw [b4, a3], ?_, b6⟩
      · rw [b3, a2]
      · rw [b5, a4]
        simp only [List.length_cons]
        omega

/-- The main loop on the buffer and on its written part agree, as long as the
buffer has room: at most as many bytes are written as were read, and one less
where a separator is still to be written. -/
theorem cleanLoop_sim (rooted : Bool) : ∀ (fuel : Nat) (rest : GoString) (out : lazybuf)
    (dotdot : Nat), out.WF → out.w + rest.length ≤ out.s.length →
    (rest = [] ∨ rest.head? = some slash ∨ out.w + rest.length < out.s.length ∨
      out.w = baseLen rooted) →
    (cleanLoop rooted fuel rest out dotdot).WF ∧
      (cleanLoop rooted fuel rest out dotdot).string =
        cleanList rooted fuel rest out.string dotdot := by
  intro fuel
  induction fuel with
  | zero =>
    intro rest out dotdot h _ _
    exact ⟨h, rfl⟩
  | succ fuel ih =>
    intro rest out dotdot h hcap hroom
    cases rest with
    | nil => exact ⟨h, rfl⟩
    | cons c t =>
      have hlen := lazybuf.string_length out h
      simp only [List.length_cons] at hcap
      unfold cleanLoop cleanList
      rw [hlen]
      by_cases h1 : c = slash
      · rw [if_pos h1, if_pos h1]
        exact ih t out dotdot h (by omega) (Or.inr (Or.inr (Or.inl (by omega))))
      rw [if_neg h1, if_neg h1]
      have hroom1 : out.w + (t.length + 1) < out.s.length ∨ out.w = baseLen rooted := by
        rcases hroom with hr | hr | hr | hr
        · cases hr
        · simp only [List.head?_cons, Option.some.injEq] at hr
          exact absurd hr h1
        · left
          simpa using hr
        · exact Or.inr hr
      by_cases h2 : c = dot ∧ (t = [] ∨ t.head? = some slash)
      · rw [if_pos h2, if_pos h2]
        refine ih t out dotdot h (by omega) ?_
        rcases h2.2 with ht | ht
        · exact Or.inl ht
        · exact Or.inr (Or.inl ht)
      rw [if_neg h2, if_neg h2]
      by_cases h3 : c = dot ∧ t.head? = some dot ∧ (t.tail = [] ∨ t.tail.head? = some slash)
      · rw [if_pos h3, if_pos h3]
        have htail : t.tail = [] ∨ t.tail.head? = some slash ∨
            False ∨ False := by
          rcases h3.2.2 with ht | ht
          · exact Or.inl ht
          · exact Or.inr (Or.inl ht)
        have htl : t.tail.length + 1 = t.length := by
          cases t with
          | nil => simp at h3
          | cons a t => simp
        by_cases h4 : out.w > dotdot
        · rw [if_pos h4, if_pos h4]
          obtain ⟨b1, b2, b3, b4⟩ := backtrack_spec dotdot out h (by omega)
          rw [← b2]
          refine ih t.tail (backtrack dotdot out) dotdot b1 (by rw [b3]; omega) ?_
          rcases h3.2.2 with ht | ht
          · exact Or.inl ht
          · exact Or.inr (Or.inl ht)
        rw [if_neg h4, if_neg h4]
        cases rooted with
        | true =>
          simp only [Bool.not_true, Bool.false_eq_true, if_false]
          refine ih t.tail out dotdot h (by omega) ?_
          rcases h3.2.2 with ht | ht
          · exact Or.inl ht
          · exact Or.inr (Or.inl ht)
        | false =>
          simp only [Bool.not_false, if_true]
          have hbase : baseLen false = 0 := rfl
          rw [hbase] at hroom1
          by_cases h5 : out.w > 0
          · rw [if_pos h5, if_pos h5]
            obtain ⟨a1, a2, a3, a4⟩ := lazybuf.append_spec out slash h (by omega)
            obtain ⟨c1, c2, c3, c4⟩ := lazybuf.append_spec (out.append slash) dot a1
              (by rw [a3, a4]; omega)
            obtain ⟨d1, d2, d3, d4⟩ := lazybuf.append_spec ((out.append slash).append dot)
              dot c1 (by rw [c3, c4, a3, a4]; omega)
            have hs : (((out.append slash).append dot).append dot).string =
                out.string ++ [slash] ++ [dot] ++ [dot] := by rw [d2, c2, a2]
            rw [← hs, lazybuf.string_length _ d1]
            refine ih t.tail _ _ d1 (by rw [d3, c3, a3, d4, c4, a4]; omega) ?_
            rcases h3.2.2 with ht | ht
            · exact Or.inl ht
            · exact Or.inr (Or.inl ht)
          · rw [if_neg h5, if_neg h5]
            obtain ⟨c1, c2, c3, c4⟩ := lazybuf.append_spec out dot h (by omega)
            obtain ⟨d1, d2, d3, d4⟩ := lazybuf.append_spec (out.append dot)
              dot c1 (by rw [c3, c4]; omega)
            have hs : ((out.append dot).append dot).string =
                out.string ++ [dot] ++ [dot] := by rw [d2, c2]
            rw [← hs, lazybuf.string_length _ d1]
            refine ih t.tail _ _ d1 (by rw [d3, c3, d4, c4]; omega) ?_
            rcases h3.2.2 with ht | ht
            · exact Or.inl ht
            · exact Or.inr (Or.inl ht)
      rw [if_neg h3, if_neg h3]
      simp only []
      by_cases h6 : (rooted = true ∧ out.w ≠ 1) ∨ ((!rooted) = true ∧ out.w ≠ 0)
      · rw [if_pos h6, if_pos h6]
        have hnb : out.w ≠ baseLen rooted := by
          unfold baseLen
          rcases h6 with ⟨hr, hne⟩ | ⟨hr, hne⟩
          · simpa [hr] using hne
          · cases rooted with
            | true => simp at hr
            | false => simpa using hne
        have hlt : out.w + (t.length + 1) < out.s.length := by
          rcases hroom1 with hr | hr
          · exact hr
          · exact absurd hr hnb
        obtain ⟨a1, a2, a3, a4⟩ := lazybuf.append_spec out slash h (by omega)
        obtain ⟨b1, b2, b3, b4, b5, b6⟩ := copyElem_spec (c :: t) (out.append slash) a1
          (by rw [a3, a4]; simp only [List.length_cons]; omega)
        rw [a2] at b2 b3
        rw [← b2, ← b3]
        refine ih _ _ dotdot b1 (by rw [b4, a3, b5, a4]; simp only [List.length_cons]; omega) ?_
        rcases b6 with hb | hb
        · exact Or.inl hb
        · exact Or.inr (Or.inl hb)
      · rw [if_neg h6, if_neg h6]
        obtain ⟨b1, b2, b3, b4, b5, b6⟩ := copyElem_spec (c :: t) out h
          (by simp only [List.length_cons]; omega)
        rw [← b2, ← b3]
        refine ih _ _ dotdot b1 (by rw [b4, b5]; simp only [List.length_cons]; omega) ?_
        rcases b6 with hb | hb
        · exact Or.inl hb
        · exact Or.inr (Or.inl hb)

/-! ## `path.Clean`: the elements of a path -/

theorem segs_ne_nil (l : GoString) : segs l ≠ [] := by
  cases l with
  | nil => simp [segs]
  | cons c t =>
    unfold segs
    split
    · simp
    · split <;> simp

theorem segs_cons (c : Byte) (t : GoString) :
    segs (c :: t) =
      if c = slash then [] :: segs t
      else
        match segs t with
        | [] => [[c]]
        | e :: es => (c :: e) :: es := rfl

theorem segs_append_slash (a b : GoString) : segs (a ++ slash :: b) = segs a ++ segs b := by
  induction a with
  | nil =>
    rw [List.nil_append, segs_cons, if_pos rfl]
    rfl
  | cons c a ih =>
    rw [List.cons_append, segs_cons c (a ++ slash :: b), segs_cons c a, ih]
    by_cases hc : c = slash
    · rw [if_pos hc, if_pos hc]
      rfl
    · rw [if_neg hc, if_neg hc]
      cases hs : segs a with
      | nil => exact absurd hs (segs_ne_nil a)
      | cons e es => rfl

theorem segs_of_not_mem (e : GoString) (h : slash ∉ e) : segs e = [e] := by
  induction e with
  | nil => rfl
  | cons c e ih =>
    simp only [List.mem_cons, not_or] at h
    unfold segs
    rw [if_neg (fun hc => h.1 hc.symm), ih h.2]

theorem not_mem_of_mem_segs (l e : GoString) (h : e ∈ segs l) : slash ∉ e := by
  induction l generalizing e with
  | nil =>
    simp only [segs, List.mem_singleton] at h
    rw [h]
    simp
  | cons c t ih =>
    unfold segs at h
    by_cases hc : c = slash
    · rw [if_pos hc] at h
      rcases List.mem_cons.mp h with h | h
      · rw [h]; simp
      · exact ih e h
    · rw [if_neg hc] at h
      cases hs : segs t with
      | nil => exact absurd hs (segs_ne_nil t)
      | cons e1 es =>
        rw [hs] at h
        simp only at h
        rcases List.mem_cons.mp h with h | h
        · rw [h]
          have := ih e1 (by rw [hs]; exact List.mem_cons_self _ _)
          simp only [List.mem_cons, not_or]
          exact ⟨fun hh => hc hh.symm, this⟩
        · exact ih e (by rw [hs]; exact List.mem_cons_of_mem _ h)

/-- The copy loop reads the bytes up to the next `/` and leaves the rest. -/
theorem copyElemList_spec (rest : GoString) : ∀ out : GoString,
    ∃ e rest1, rest = e ++ rest1 ∧ slash ∉ e ∧ (rest1 = [] ∨ ∃ t1, rest1 = slash :: t1) ∧
      copyElemList out rest = (out ++ e, rest1) := by
  induction rest with
  | nil =>
    intro out
    exact ⟨[], [], rfl, by simp, Or.inl rfl, by simp [copyElemList]⟩
  | cons c t ih =>
    intro out
    unfold copyElemList
    by_cases hc : c = slash
    · rw [if_pos hc]
      exact ⟨[], c :: t, rfl, by simp, Or.inr ⟨t, by rw [hc]⟩, by simp⟩
    · rw [if_neg hc]
      obtain ⟨e, rest1, h1, h2, h3, h4⟩ := ih (out ++ [c])
      refine ⟨c :: e, rest1, by rw [h1]; rfl, ?_, h3, ?_⟩
      · simp only [List.mem_cons, not_or]
        exact ⟨fun hh => hc hh.symm, h2⟩
      · rw [h4]
        simp

theorem step_nil (rooted : Bool) (st : GoString × List GoString) : step rooted st [] = st := by
  simp [step]

theorem step_dot (rooted : Bool) (st : GoString × List GoString) :
    step rooted st [dot] = st := by
  simp [step]

theorem foldl_segs_slash (rooted : Bool) (st : GoString × List GoString) (t : GoString) :
    (segs (slash :: t)).foldl (step rooted) st = (segs t).foldl (step rooted) st := by
  simp [segs, step_nil]

theorem foldl_segs_nil (rooted : Bool) (st : GoString × List GoString) :
    (segs []).foldl (step rooted) st = st := by
  simp [segs, step_nil]

/-- Reading one element `e` up to a `/` or to the end of the path. -/
theorem foldl_segs_elem (rooted : Bool) (st : GoString × List GoString) (e rest1 : GoString)
    (he : slash ∉ e) (hr : rest1 = [] ∨ ∃ t1, rest1 = slash :: t1) :
    (segs (e ++ rest1)).foldl (step rooted) st =
      (segs rest1).foldl (step rooted) (step rooted st e) := by
  rcases hr with hr | ⟨t1, hr⟩
  · rw [hr, List.append_nil, segs_of_not_mem e he, foldl_segs_nil]
    rfl
  · rw [hr, segs_append_slash, segs_of_not_mem e he, foldl_segs_slash]
    rfl

theorem tailStr_nil : tailStr [] = [] := rfl

theorem tailStr_cons (e : GoString) (es : List GoString) :
    tailStr (e :: es) = slash :: (e ++ tailStr es) := by
  simp [tailStr]

theorem tailStr_append (a b : List GoString) : tailStr (a ++ b) = tailStr a ++ tailStr b := by
  simp [tailStr]

theorem tailStr_concat (a : List GoString) (e : GoString) :
    tailStr (a ++ [e]) = tailStr a ++ slash :: e := by
  rw [tailStr_append, tailStr_cons, tailStr_nil, List.append_nil]

/-- Where the backtrack stops: at the `/` before the last element, or at
`dotdot`. -/
theorem btIndex_stop (d : Nat) (a : GoString) (c : Byte) (e : GoString) (he : slash ∉ e)
    (hd : d ≤ a.length) (hc : c = slash ∨ a.length = d) (j : Nat) (hj : j ≤ e.length) :
    btIndex d (a ++ c :: e) (a.length + j) = a.length := by
  induction j with
  | zero =>
    rw [Nat.add_zero]
    cases hal : a.length with
    | zero => rfl
    | succ n =>
      unfold btIndex
      have hget : (a ++ c :: e).getD (n + 1) 0 = c := by
        rw [← hal, List.getD_eq_getElem _ _ (by simp)]
        rw [List.getElem_append_right (Nat.le_refl _)]
        simp
      rw [hget, if_neg]
      intro hcon
      rcases hc with hc | hc
      · exact hcon.2 hc
      · omega
  | succ j ih =>
    have hidx : a.length + (j + 1) = (a.length + j) + 1 := by omega
    rw [hidx]
    unfold btIndex
    have hjl : j < e.length := by omega
    have hget : (a ++ c :: e).getD (a.length + j + 1) 0 = e[j] := by
      rw [List.getD_eq_getElem _ _ (by simp; omega)]
      rw [List.getElem_append_right (by omega)]
      simp [Nat.add_assoc]
    have hne : e[j] ≠ slash := by
      intro hh
      apply he
      rw [← hh]
      exact List.getElem_mem hjl
    rw [hget, if_pos ⟨by omega, hne⟩]
    exact ih (by omega)

theorem backtrackList_stop (d : Nat) (a : GoString) (c : Byte) (e : GoString)
    (he : slash ∉ e) (hd : d ≤ a.length) (hc : c = slash ∨ a.length = d) :
    backtrackList d (a ++ c :: e) = a := by
  unfold backtrackList
  have hl : (a ++ c :: e).length - 1 = a.length + e.length := by simp
  rw [hl, btIndex_stop d a c e he hd hc e.length (Nat.le_refl _)]
  simp

theorem glue_nil (rooted : Bool) (pre : GoString) : glue rooted (pre, []) = pre := by
  simp [glue, tailStr]

theorem sepCond_iff (rooted : Bool) (n : Nat) :
    ((rooted = true ∧ n ≠ 1) ∨ ((!rooted) = true ∧ n ≠ 0)) ↔ n ≠ baseLen rooted := by
  cases rooted <;> simp [baseLen]

theorem baseLen_le (rooted : Bool) (st : GoString × List GoString)
    (hv : ValidState rooted st) : baseLen rooted ≤ st.1.length := by
  cases rooted with
  | false => simp [baseLen]
  | true => rw [hv.1 rfl]; simp [baseLen]

/-- A state whose prefix is longer than the base is one of a path that is not
rooted. -/
theorem length_eq_baseLen_of_rooted (st : GoString × List GoString)
    (hv : ValidState true st) : st.1.length = baseLen true := by
  rw [hv.1 rfl]
  rfl

theorem glue_concat (rooted : Bool) (st : GoString × List GoString) (e : GoString)
    (hv : ValidState rooted st) :
    glue rooted (st.1, st.2 ++ [e]) =
      (if (glue rooted st).length ≠ baseLen rooted then glue rooted st ++ [slash]
        else glue rooted st) ++ e := by
  obtain ⟨pre, stack⟩ := st
  simp only [glue, tailStr_concat]
  by_cases hb : pre.length = baseLen rooted
  · rw [if_pos hb, if_pos hb]
    cases stack with
    | nil => simp [tailStr_nil, hb]
    | cons s ss =>
      have hs : s ≠ [] := (hv.2 s (List.mem_cons_self _ _)).1
      rw [tailStr_cons]
      simp only [List.cons_append, List.drop_succ_cons, List.drop_zero, List.length_append]
      rw [if_pos]
      · simp
      · have : 0 < s.length := List.length_pos.mpr hs
        omega
  · rw [if_neg hb, if_neg hb]
    have hne : (pre ++ tailStr stack).length ≠ baseLen rooted := by
      cases rooted with
      | true => exact absurd (length_eq_baseLen_of_rooted _ hv) hb
      | false =>
        simp only [baseLen, Bool.false_eq_true, if_false] at hb ⊢
        simp only [List.length_append]
        omega
    rw [if_pos hne]
    simp

theorem glue_length (rooted : Bool) (st : GoString × List GoString)
    (hv : ValidState rooted st) : st.1.length < (glue rooted st).length ↔ st.2 ≠ [] := by
  obtain ⟨pre, stack⟩ := st
  cases stack with
  | nil => simp [glue_nil]
  | cons s ss =>
    have hs : s ≠ [] := (hv.2 s (List.mem_cons_self _ _)).1
    have : 0 < s.length := List.length_pos.mpr hs
    simp only [glue, tailStr_cons, ne_eq, reduceCtorEq, not_false_eq_true, iff_true]
    split
    · simp
      omega
    · simp

theorem glue_dropLast (rooted : Bool) (st : GoString × List GoString)
    (hv : ValidState rooted st) (hne : st.2 ≠ []) :
    backtrackList st.1.length (glue rooted st) = glue rooted (st.1, st.2.dropLast) := by
  obtain ⟨pre, stack⟩ := st
  rcases List.eq_nil_or_concat stack with h | ⟨ss, e, h⟩
  · exact absurd h hne
  rw [List.concat_eq_append] at h
  subst h
  have he : IsName e := hv.2 e (by simp)
  simp only [List.dropLast_concat, glue, tailStr_concat]
  by_cases hb : pre.length = baseLen rooted
  · rw [if_pos hb, if_pos hb]
    cases ss with
    | nil =>
      obtain ⟨c, e1, hce⟩ := List.exists_cons_of_ne_nil he.1
      subst hce
      simp only [tailStr_nil, List.nil_append, List.drop_succ_cons, List.drop_zero,
        List.drop_nil, List.append_nil]
      have hnm : slash ∉ e1 := fun hh => he.2.1 (List.mem_cons_of_mem _ hh)
      exact backtrackList_stop pre.length pre c e1 hnm (Nat.le_refl _) (Or.inr rfl)
    | cons s ss =>
      rw [tailStr_cons]
      simp only [List.cons_append, List.drop_succ_cons, List.drop_zero]
      rw [← List.append_assoc]
      exact backtrackList_stop pre.length (pre ++ (s ++ tailStr ss)) slash e he.2.1
        (by simp) (Or.inl rfl)
  · rw [if_neg hb, if_neg hb, ← List.append_assoc]
    exact backtrackList_stop pre.length (pre ++ tailStr ss) slash e he.2.1 (by simp)
      (Or.inl rfl)

theorem step_valid (rooted : Bool) (st : GoString × List GoString) (e : GoString)
    (hv : ValidState rooted st) (he : slash ∉ e) : ValidState rooted (step rooted st e) := by
  unfold step
  split
  · exact hv
  · next h1 =>
    split
    · split
      · exact ⟨hv.1, fun x hx => hv.2 x (List.mem_of_mem_dropLast hx)⟩
      · split
        · exact hv
        · next hr =>
          refine ⟨fun h => absurd h hr, ?_⟩
          intro x hx
          simp at hx
    · next h2 =>
      refine ⟨hv.1, ?_⟩
      intro x hx
      rcases List.mem_append.mp hx with hx | hx
      · exact hv.2 x hx
      · rw [List.mem_singleton] at hx
        rw [hx]
        exact ⟨fun h => h1 (Or.inl h), he, fun h => h1 (Or.inr h), h2⟩

theorem foldl_step_valid (rooted : Bool) (l : List GoString) :
    ∀ st : GoString × List GoString, ValidState rooted st → (∀ e ∈ l, slash ∉ e) →
      ValidState rooted (l.foldl (step rooted) st) := by
  induction l with
  | nil => intro st hv _; exact hv
  | cons e l ih =>
    intro st hv hl
    rw [List.foldl_cons]
    exact ih _ (step_valid rooted st e hv (hl e (List.mem_cons_self _ _)))
      (fun x hx => hl x (List.mem_cons_of_mem _ hx))

/-- The main loop, on the written part of the buffer, computes the state of
the elements of the unread path. -/
theorem cleanList_eq (rooted : Bool) : ∀ (fuel : Nat) (rest : GoString)
    (st : GoString × List GoString), rest.length ≤ fuel → ValidState rooted st →
    cleanList rooted fuel rest (glue rooted st) st.1.length =
      glue rooted ((segs rest).foldl (step rooted) st) := by
  intro fuel
  induction fuel with
  | zero =>
    intro rest st hlen _
    have : rest = [] := List.length_eq_zero.mp (Nat.le_zero.mp hlen)
    rw [this, foldl_segs_nil]
    rfl
  | succ fuel ih =>
    intro rest st hlen hv
    cases rest with
    | nil =>
      rw [foldl_segs_nil]
      rfl
    | cons c t =>
      simp only [List.length_cons, Nat.add_le_add_iff_right] at hlen
      unfold cleanList
      by_cases h1 : c = slash
      · rw [if_pos h1, h1, foldl_segs_slash]
        exact ih t st hlen hv
      rw [if_neg h1]
      by_cases h2 : c = dot ∧ (t = [] ∨ t.head? = some slash)
      · rw [if_pos h2, ih t st hlen hv]
        have hr : t = [] ∨ ∃ t1, t = slash :: t1 := by
          rcases h2.2 with ht | ht
          · exact Or.inl ht
          · cases t with
            | nil => simp at ht
            | cons a t1 =>
              simp only [List.head?_cons, Option.some.injEq] at ht
              exact Or.inr ⟨t1, by rw [ht]⟩
        have := foldl_segs_elem rooted st [dot] t (by decide) hr
        rw [List.singleton_append, step_dot] at this
        rw [h2.1, this]
      rw [if_neg h2]
      by_cases h3 : c = dot ∧ t.head? = some dot ∧ (t.tail = [] ∨ t.tail.head? = some slash)
      · rw [if_pos h3]
        obtain ⟨hc, ht, htt⟩ := h3
        cases t with
        | nil => simp at ht
        | cons a t2 =>
          simp only [List.head?_cons, Option.some.injEq] at ht
          simp only [List.tail_cons] at htt ⊢
          simp only [List.length_cons] at hlen
          have hr : t2 = [] ∨ ∃ t1, t2 = slash :: t1 := by
            rcases htt with ht2 | ht2
            · exact Or.inl ht2
            · cases t2 with
              | nil => simp at ht2
              | cons b t1 =>
                simp only [List.head?_cons, Option.some.injEq] at ht2
                exact Or.inr ⟨t1, by rw [ht2]⟩
          have hfold := foldl_segs_elem rooted st [dot, dot] t2 (by decide) hr
          rw [hc, ht]
          have happ : dot :: dot :: t2 = [dot, dot] ++ t2 := rfl
          rw [happ, hfold]
          have hvs := step_valid rooted st [dot, dot] hv (by decide)
          have hst : step rooted st [dot, dot] =
              if st.2 ≠ [] then (st.1, st.2.dropLast)
              else if rooted then st
              else (if st.1 = [] then [dot, dot] else st.1 ++ [slash, dot, dot], []) := by
            unfold step
            rw [if_neg (by decide), if_pos rfl]
          rw [hst] at hvs ⊢
          by_cases h4 : st.2 ≠ []
          · rw [if_pos ((glue_length rooted st hv).mpr h4), glue_dropLast rooted st hv h4]
            rw [if_pos h4] at hvs ⊢
            exact ih t2 (st.1, st.2.dropLast) (by omega) hvs
          · rw [if_neg (fun h => h4 ((glue_length rooted st hv).mp h))]
            rw [if_neg h4] at hvs ⊢
            have hnil : st.2 = [] := not_not.mp h4
            have hglue : glue rooted st = st.1 := by
              obtain ⟨pre, stack⟩ := st
              simp only at hnil
              rw [hnil, glue_nil]
            cases rooted with
            | true =>
              simp only [Bool.not_true, Bool.false_eq_true, if_false, if_true] at hvs ⊢
              exact ih t2 st (by omega) hv
            | false =>
              simp only [Bool.not_false, Bool.false_eq_true, if_false, if_true] at hvs ⊢
              rw [hglue]
              by_cases h5 : st.1 = []
              · rw [if_pos h5] at hvs ⊢
                have hl : ¬ st.1.length > 0 := by rw [h5]; simp
                rw [if_neg hl, h5]
                have := ih t2 ([dot, dot], []) (by omega) hvs
                rw [glue_nil] at this
                exact this
              · rw [if_neg h5] at hvs ⊢
                have hl : st.1.length > 0 := List.length_pos.mpr h5
                rw [if_pos hl]
                have := ih t2 (st.1 ++ [slash, dot, dot], []) (by omega) hvs
                rw [glue_nil] at this
                simp only [List.append_assoc, List.singleton_append] at this ⊢
                exact this
      rw [if_neg h3]
      simp only []
      obtain ⟨e, rest1, hsplit, hnm, hr, hcopy⟩ := copyElemList_spec (c :: t)
        (if (rooted = true ∧ (glue rooted st).length ≠ 1) ∨
            ((!rooted) = true ∧ (glue rooted st).length ≠ 0) then glue rooted st ++ [slash]
          else glue rooted st)
      rw [hcopy]
      simp only []
      -- the element read is a name
      have hene : e ≠ [] := by
        intro he
        rw [he, List.nil_append] at hsplit
        rcases hr with hr | ⟨t1, hr⟩
        · rw [hr] at hsplit
          cases hsplit
        · rw [hr] at hsplit
          injection hsplit with hh _
          exact h1 hh
      obtain ⟨c1, e1, hce⟩ := List.exists_cons_of_ne_nil hene
      subst hce
      rw [List.cons_append] at hsplit
      injection hsplit with hcc ht
      subst hcc
      have hndot : c :: e1 ≠ [dot] := by
        intro he
        injection he with hc he1
        subst he1
        rw [List.nil_append] at ht
        apply h2
        refine ⟨hc, ?_⟩
        rcases hr with hr | ⟨t1, hr⟩
        · exact Or.inl (ht.trans hr)
        · exact Or.inr (by rw [ht, hr]; rfl)
      have hndd : c :: e1 ≠ [dot, dot] := by
        intro he
        injection he with hc he1
        subst he1
        rw [List.singleton_append] at ht
        apply h3
        refine ⟨hc, by rw [ht]; rfl, ?_⟩
        rw [ht]
        rcases hr with hr | ⟨t1, hr⟩
        · exact Or.inl hr
        · exact Or.inr (by rw [hr]; rfl)
      have hstep : step rooted st (c :: e1) = (st.1, st.2 ++ [c :: e1]) := by
        unfold step
        rw [if_neg (by simp [hndot]), if_neg hndd]
      have hvs := step_valid rooted st (c :: e1) hv hnm
      have hfold := foldl_segs_elem rooted st (c :: e1) rest1 hnm hr
      rw [List.cons_append, ← ht] at hfold
      rw [hfold, hstep]
      rw [hstep] at hvs
      have hpush := glue_concat rooted st (c :: e1) hv
      have hcond : ((rooted = true ∧ (glue rooted st).length ≠ 1) ∨
            ((!rooted) = true ∧ (glue rooted st).length ≠ 0)) ↔
          (glue rooted st).length ≠ baseLen rooted := sepCond_iff rooted _
      have hout : (if (rooted = true ∧ (glue rooted st).length ≠ 1) ∨
            ((!rooted) = true ∧ (glue rooted st).length ≠ 0) then glue rooted st ++ [slash]
          else glue rooted st) ++ c :: e1 = glue rooted (st.1, st.2 ++ [c :: e1]) := by
        rw [hpush]
        by_cases hb : (glue rooted st).length ≠ baseLen rooted
        · rw [if_pos hb, if_pos (hcond.mpr hb)]
        · rw [if_neg hb, if_neg (fun h => hb (hcond.mp h))]
      rw [hout]
      have hlen1 : rest1.length ≤ fuel := by
        have : t.length = e1.length + rest1.length := by rw [ht]; simp
        omega
      exact ih rest1 (st.1, st.2 ++ [c :: e1]) hlen1 hvs

/-- What `Clean` returns, in terms of the elements of the path: for every path
the loop runs to the end of the path within its fuel and leaves the cleaned
path `cleanSpec`. -/
theorem Clean_eq_cleanSpec (path : GoString) : Clean path = cleanSpec path := by
  by_cases hp : path = []
  · rw [hp]
    rfl
  unfold Clean cleanSpec cleanState
  rw [if_neg hp]
  obtain ⟨c, t, hct⟩ := List.exists_cons_of_ne_nil hp
  subst hct
  have hwf0 : ({ s := c :: t, buf := none, w := 0 } : lazybuf).WF :=
    ⟨Nat.zero_le _, fun buf h => (by cases h)⟩
  by_cases hc : c = slash
  · -- rooted
    have hr : ((c :: t).head? = some slash) = True := by simp [hc]
    simp only [hr, decide_True, if_true, List.drop_succ_cons, List.drop_zero]
    obtain ⟨a1, a2, a3, a4⟩ := lazybuf.append_spec
      ({ s := c :: t, buf := none, w := 0 } : lazybuf) slash hwf0 (by simp)
    have hstr : (lazybuf.append { s := c :: t, buf := none, w := 0 } slash).string =
        [slash] := by
      rw [a2]
      rfl
    obtain ⟨b1, b2⟩ := cleanLoop_sim true (c :: t).length t _ 1 a1
      (by rw [a3, a4]; simp; omega) (Or.inr (Or.inr (Or.inr (by rw [a4]; rfl))))
    have hv : ValidState true ([slash], []) := ⟨fun _ => rfl, fun e he => (by simp at he)⟩
    have hmain := cleanList_eq true (c :: t).length t ([slash], []) (by simp) hv
    rw [glue_nil] at hmain
    rw [hstr] at b2
    have hlen := lazybuf.string_length _ b1
    rw [hc, foldl_segs_slash]
    have hw0 : ((cleanLoop true (slash :: t).length t
        (lazybuf.append { s := slash :: t, buf := none, w := 0 } slash) 1).w = 0) ↔
        (cleanLoop true (slash :: t).length t
        (lazybuf.append { s := slash :: t, buf := none, w := 0 } slash) 1).string = [] := by
      rw [hc] at hlen
      rw [← hlen]
      exact List.length_eq_zero
    rw [hc] at b2 hmain
    have hm1 : cleanList true (slash :: t).length t [slash] 1 =
        glue true ((segs t).foldl (step true) ([slash], [])) := hmain
    by_cases h0 : (cleanLoop true (slash :: t).length t
        (lazybuf.append { s := slash :: t, buf := none, w := 0 } slash) 1).w = 0
    · rw [if_pos h0]
      have h1 := hw0.mp h0
      rw [b2, hm1] at h1
      rw [if_pos h1]
      rfl
    · rw [if_neg h0]
      have h1 : ¬ _ := fun h => h0 (hw0.mpr h)
      rw [b2, hm1] at h1 ⊢
      rw [if_neg h1]
  · -- not rooted
    have hr : ((c :: t).head? = some slash) = False := by simp [hc]
    simp only [hr, decide_False, Bool.false_eq_true, if_false, List.drop_zero]
    have hstr : ({ s := c :: t, buf := none, w := 0 } : lazybuf).string = [] := rfl
    obtain ⟨b1, b2⟩ := cleanLoop_sim false (c :: t).length (c :: t) _ 0 hwf0
      (by simp) (Or.inr (Or.inr (Or.inr rfl)))
    have hv : ValidState false ([], []) := ⟨fun h => (by cases h), fun e he => (by simp at he)⟩
    have hmain := cleanList_eq false (c :: t).length (c :: t) ([], []) (Nat.le_refl _) hv
    rw [glue_nil] at hmain
    rw [hstr] at b2
    have hlen := lazybuf.string_length _ b1
    have hm1 : cleanList false (c :: t).length (c :: t) [] 0 =
        glue false ((segs (c :: t)).foldl (step false) ([], [])) := hmain
    have hw0 : ((cleanLoop false (c :: t).length (c :: t)
        { s := c :: t, buf := none, w := 0 } 0).w = 0) ↔
        (cleanLoop false (c :: t).length (c :: t)
        { s := c :: t, buf := none, w := 0 } 0).string = [] := by
      rw [← hlen]
      exact List.length_eq_zero
    by_cases h0 : (cleanLoop false (c :: t).length (c :: t)
        { s := c :: t, buf := none, w := 0 } 0).w = 0
    · rw [if_pos h0]
      have h1 := hw0.mp h0
      rw [b2, hm1] at h1
      rw [if_pos h1]
      rfl
    · rw [if_neg h0]
      have h1 : ¬ _ := fun h => h0 (hw0.mpr h)
      rw [b2, hm1] at h1 ⊢
      rw [if_neg h1]

/-! ## The source path stays under the media root -/

theorem segs_tailStr (S : List GoString) (hS : ∀ e ∈ S, slash ∉ e) (hne : S ≠ []) :
    segs (tailStr S) = [] :: S := by
  induction S with
  | nil => exact absurd rfl hne
  | cons e es ih =>
    rw [tailStr_cons, segs_cons, if_pos rfl]
    congr 1
    have he : slash ∉ e := hS e (List.mem_cons_self _ _)
    cases es with
    | nil => rw [tailStr_nil, List.append_nil, segs_of_not_mem e he]
    | cons e2 es2 =>
      have ih2 := ih (fun x hx => hS x (List.mem_cons_of_mem _ hx)) (by simp)
      rw [tailStr_cons] at ih2 ⊢
      rw [segs_cons, if_pos rfl] at ih2
      injection ih2 with _ ih3
      rw [segs_append_slash, segs_of_not_mem e he, ih3]
      rfl

theorem foldl_step_names (rooted : Bool) (S : List GoString) (hS : ∀ e ∈ S, IsName e) :
    ∀ st : GoString × List GoString, S.foldl (step rooted) st = (st.1, st.2 ++ S) := by
  induction S with
  | nil => intro st; simp
  | cons e S ih =>
    intro st
    have he := hS e (List.mem_cons_self _ _)
    have hstep : step rooted st e = (st.1, st.2 ++ [e]) := by
      unfold step
      rw [if_neg (by simp [he.1, he.2.2.1]), if_neg he.2.2.2]
    rw [List.foldl_cons, hstep, ih (fun x hx => hS x (List.mem_cons_of_mem _ hx))]
    simp

theorem glue_append (rooted : Bool) (st : GoString × List GoString) (S : List GoString)
    (hne : (glue rooted st).length ≠ baseLen rooted) :
    glue rooted (st.1, st.2 ++ S) = glue rooted st ++ tailStr S := by
  obtain ⟨pre, stack⟩ := st
  simp only [glue, tailStr_append] at hne ⊢
  by_cases hb : pre.length = baseLen rooted
  · simp only [if_pos hb] at hne ⊢
    have hpos : 1 ≤ (tailStr stack).length := by
      cases hts : tailStr stack with
      | nil =>
        rw [hts] at hne
        simp only [List.drop_nil, List.append_nil] at hne
        exact absurd hb hne
      | cons a l => simp
    rw [List.drop_append_of_le_length hpos, List.append_assoc]
  · simp only [if_neg hb, List.append_assoc]

/-- The state of a rooted path: the prefix `/` and names. -/
theorem cleanState_rooted (p : GoString) (hp : p.head? = some slash) :
    ∃ S, (∀ e ∈ S, IsName e) ∧ cleanState p = ([slash], S) ∧
      Clean p = slash :: (tailStr S).drop 1 := by
  have hv0 : ValidState true ([slash], []) := ⟨fun _ => rfl, fun e he => (by simp at he)⟩
  have hv := foldl_step_valid true (segs p) ([slash], []) hv0
    (fun e he => not_mem_of_mem_segs p e he)
  have hcs : cleanState p = (segs p).foldl (step true) ([slash], []) := by
    unfold cleanState
    simp [hp]
  refine ⟨(cleanState p).2, ?_, ?_, ?_⟩
  · rw [hcs]
    exact hv.2
  · rw [hcs]
    exact Prod.ext (hv.1 rfl) rfl
  · rw [Clean_eq_cleanSpec]
    unfold cleanSpec
    have h1 : (cleanState p).1 = [slash] := by rw [hcs]; exact hv.1 rfl
    have hg : glue (decide (p.head? = some slash)) (cleanState p) =
        slash :: (tailStr (cleanState p).2).drop 1 := by
      simp [glue, hp, h1, baseLen]
    simp only [hg]
    rw [if_neg (by simp)]

theorem Join_pair (m cp : GoString) (hm : m ≠ []) :
    Join [m, cp] = Clean (m ++ slash :: cp) := by
  obtain ⟨c, t, rfl⟩ := List.exists_cons_of_ne_nil hm
  unfold Join
  rw [if_neg (by simp)]
  simp [joinElems]

theorem Join_nil_left (cp : GoString) (hcp : cp ≠ []) : Join [[], cp] = Clean cp := by
  unfold Join
  rw [if_neg (by simpa using hcp)]
  simp [joinElems, hcp]

/-- The elements of a cleaned rooted path are its names, after an empty first
element. -/
theorem foldl_segs_cleaned (rooted : Bool) (S : List GoString) (hS : ∀ e ∈ S, IsName e)
    (st : GoString × List GoString) :
    (segs (slash :: (tailStr S).drop 1)).foldl (step rooted) st = (st.1, st.2 ++ S) := by
  cases S with
  | nil =>
    simp [tailStr_nil, segs, step_nil]
  | cons e es =>
    have h1 : slash :: (tailStr (e :: es)).drop 1 = tailStr (e :: es) := by
      rw [tailStr_cons]
      rfl
    rw [h1, segs_tailStr (e :: es) (fun x hx => (hS x hx).2.1) (by simp), List.foldl_cons,
      step_nil, foldl_step_names rooted (e :: es) hS]

/-- Joining a non-empty root with a cleaned rooted path keeps the state of the
root and appends the names of the path. -/
theorem cleanState_join (m : GoString) (hm : m ≠ []) (S : List GoString)
    (hS : ∀ e ∈ S, IsName e) :
    cleanState (m ++ slash :: slash :: (tailStr S).drop 1) =
        ((cleanState m).1, (cleanState m).2 ++ S) ∧
      (m ++ slash :: slash :: (tailStr S).drop 1).head? = m.head? := by
  obtain ⟨c, t, rfl⟩ := List.exists_cons_of_ne_nil hm
  refine ⟨?_, rfl⟩
  unfold cleanState
  simp only [List.cons_append, List.head?_cons]
  rw [← List.cons_append, segs_append_slash, List.foldl_append, foldl_segs_cleaned _ S hS]

theorem cleanSpec_join (m : GoString) (hm : m ≠ []) (S : List GoString)
    (hS : ∀ e ∈ S, IsName e) :
    Clean (m ++ slash :: slash :: (tailStr S).drop 1) =
      (if glue (m.head? = some slash) ((cleanState m).1, (cleanState m).2 ++ S) = []
        then [dot]
        else glue (m.head? = some slash) ((cleanState m).1, (cleanState m).2 ++ S)) := by
  rw [Clean_eq_cleanSpec]
  unfold cleanSpec
  obtain ⟨h1, h2⟩ := cleanState_join m hm S hS
  simp only [h1, h2]

theorem cleanState_valid (m : GoString) :
    ValidState (m.head? = some slash) (cleanState m) := by
  unfold cleanState
  apply foldl_step_valid
  · by_cases h : m.head? = some slash
    · simp only [h, decide_True, if_true]
      exact ⟨fun _ => rfl, fun e he => (by simp at he)⟩
    · simp only [h, decide_False, Bool.false_eq_true, if_false]
      exact ⟨fun hh => (by cases hh), fun e he => (by simp at he)⟩
  · exact fun e he => not_mem_of_mem_segs m e he

theorem str_slash : str "/" = [slash] := by decide

theorem str_dot : str "." = [dot] := by decide

/-- The cleaned media root is the glued state of the root, unless it is `/` or
`.`. -/
theorem glue_cleanState_of_ne (m : GoString) (h1 : Clean m ≠ [slash]) (h2 : Clean m ≠ [dot]) :
    (glue (m.head? = some slash) (cleanState m)).length ≠ baseLen (m.head? = some slash) ∧
      Clean m = glue (m.head? = some slash) (cleanState m) := by
  rw [Clean_eq_cleanSpec] at h1 h2
  have hv := cleanState_valid m
  have hne : (glue (m.head? = some slash) (cleanState m)).length ≠
      baseLen (m.head? = some slash) := by
    intro hlen
    by_cases hr : m.head? = some slash
    · simp only [hr, decide_True] at hlen hv
      have hpre := hv.1 rfl
      apply h1
      unfold cleanSpec
      simp only [hr, decide_True]
      have hgl : glue true (cleanState m) = slash :: (tailStr (cleanState m).2).drop 1 := by
        unfold glue
        rw [hpre]
        simp [baseLen]
      have hg : glue true (cleanState m) = [slash] := by
        rw [hgl] at hlen ⊢
        have hz : ((tailStr (cleanState m).2).drop 1).length = 0 := by
          have hb : baseLen true = 1 := rfl
          rw [hb, List.length_cons] at hlen
          omega
        rw [List.length_eq_zero.mp hz]
      rw [hg]
      rfl
    · simp only [hr, decide_False] at hlen
      apply h2
      unfold cleanSpec
      simp only [hr, decide_False]
      have hg : glue false (cleanState m) = [] := by
        apply List.length_eq_zero.mp
        rw [hlen]
        rfl
      rw [hg]
      rfl
  refine ⟨hne, ?_⟩
  rw [Clean_eq_cleanSpec]
  unfold cleanSpec
  simp only []
  rw [if_neg]
  intro hnil
  by_cases hr : m.head? = some slash
  · simp only [hr, decide_True] at hnil hv
    unfold glue at hnil
    rw [hv.1 rfl] at hnil
    simp at hnil
  · simp only [hr, decide_False] at hnil hne
    rw [hnil] at hne
    exact hne rfl

/-- The source path, for a media root which is neither empty, nor `/`, nor `.`
once cleaned. -/
theorem Join_Clean_under (m p : GoString) (hp : p.head? = some slash) (hm : m ≠ [])
    (h1 : Clean m ≠ [slash]) (h2 : Clean m ≠ [dot]) :
    Join [m, Clean p] = Clean m ∨ (Clean m ++ [slash]) <+: Join [m, Clean p] := by
  obtain ⟨S, hS, _, hcp⟩ := cleanState_rooted p hp
  obtain ⟨hne, hcm⟩ := glue_cleanState_of_ne m h1 h2
  rw [Join_pair m _ hm, hcp, cleanSpec_join m hm S hS,
    glue_append _ (cleanState m) S hne, ← hcm]
  have hnn : Clean m ++ tailStr S ≠ [] := by
    intro h
    have h3 := (List.append_eq_nil.mp h).1
    rw [hcm] at h3
    rw [h3] at hne
    by_cases hr : m.head? = some slash
    · have hv := cleanState_valid m
      simp only [hr, decide_True] at h3 hv
      unfold glue at h3
      rw [hv.1 rfl] at h3
      simp at h3
    · simp only [hr, decide_False] at hne
      exact hne rfl
  rw [if_neg hnn]
  cases S with
  | nil =>
    left
    rw [tailStr_nil, List.append_nil]
  | cons e es =>
    right
    rw [tailStr_cons]
    exact ⟨e ++ tailStr es, by simp⟩

theorem stack_nil_of_drop_nil (stack : List GoString) (hS : ∀ e ∈ stack, IsName e)
    (h : (tailStr stack).drop 1 = []) : stack = [] := by
  cases stack with
  | nil => rfl
  | cons e es =>
    rw [tailStr_cons] at h
    simp only [List.drop_succ_cons, List.drop_zero, List.append_eq_nil] at h
    exact absurd h.1 (hS e (List.mem_cons_self _ _)).1

/-- The prefix of a path that is not rooted is empty or starts with `..`. -/
theorem foldl_step_pre (l : List GoString) :
    ∀ st : GoString × List GoString, (st.1 = [] ∨ ∃ x, st.1 = dot :: dot :: x) →
      ((l.foldl (step false) st).1 = [] ∨ ∃ x, (l.foldl (step false) st).1 = dot :: dot :: x) := by
  induction l with
  | nil => intro st h; exact h
  | cons e l ih =>
    intro st h
    rw [List.foldl_cons]
    apply ih
    unfold step
    split
    · exact h
    · split
      · split
        · exact h
        · simp only [Bool.false_eq_true, if_false]
          right
          rcases h with h | ⟨x, h⟩
          · rw [if_pos h]
            exact ⟨[], rfl⟩
          · rw [if_neg (by rw [h]; simp), h]
            exact ⟨x ++ [slash, dot, dot], rfl⟩
      · exact h

theorem cleanState_pre_of_not_rooted (m : GoString) (hr : ¬ m.head? = some slash) :
    (cleanState m).1 = [] ∨ ∃ x, (cleanState m).1 = dot :: dot :: x := by
  unfold cleanState
  simp only [hr, decide_False, Bool.false_eq_true, if_false]
  exact foldl_step_pre (segs m) ([], []) (Or.inl rfl)

/-- A media root that cleans to `/` is rooted and keeps no element. -/
theorem cleanState_of_Clean_slash (m : GoString) (h : Clean m = [slash]) :
    m.head? = some slash ∧ cleanState m = ([slash], []) := by
  rw [Clean_eq_cleanSpec] at h
  have hv := cleanState_valid m
  by_cases hr : m.head? = some slash
  · refine ⟨hr, ?_⟩
    simp only [hr, decide_True] at hv
    have hpre := hv.1 rfl
    unfold cleanSpec at h
    simp only [hr, decide_True] at h
    have hgl : glue true (cleanState m) = slash :: (tailStr (cleanState m).2).drop 1 := by
      unfold glue
      rw [hpre]
      simp [baseLen]
    rw [hgl, if_neg (by simp)] at h
    injection h with _ h
    exact Prod.ext hpre (stack_nil_of_drop_nil _ hv.2 h)
  · exfalso
    simp only [hr, decide_False] at hv
    unfold cleanSpec at h
    simp only [hr, decide_False] at h
    by_cases hg : glue false (cleanState m) = []
    · rw [if_pos hg] at h
      cases h
    · rw [if_neg hg] at h
      unfold glue at h
      rcases cleanState_pre_of_not_rooted m hr with hp | ⟨x, hp⟩
      · rw [hp] at h
        simp only [List.length_nil, baseLen, Bool.false_eq_true, if_false, if_true,
          List.nil_append] at h
        cases hs : (cleanState m).2 with
        | nil =>
          rw [hs, tailStr_nil] at h
          cases h
        | cons e es =>
          rw [hs, tailStr_cons] at h
          simp only [List.drop_succ_cons, List.drop_zero] at h
          have he := hv.2 e (by rw [hs]; exact List.mem_cons_self _ _)
          obtain ⟨c, e1, hce⟩ := List.exists_cons_of_ne_nil he.1
          rw [hce, List.cons_append] at h
          injection h with hc _
          apply he.2.1
          rw [hce, hc]
          exact List.mem_cons_self _ _
      · rw [hp] at h
        simp only [List.cons_append] at h
        injection h with hc _
        exact absurd hc (by decide)

/-- A non-empty media root that cleans to `.` is not rooted, has no prefix and
keeps no element. -/
theorem cleanState_of_Clean_dot (m : GoString) (h : Clean m = [dot]) :
    ¬ m.head? = some slash ∧ cleanState m = ([], []) := by
  rw [Clean_eq_cleanSpec] at h
  have hv := cleanState_valid m
  by_cases hr : m.head? = some slash
  · exfalso
    simp only [hr, decide_True] at hv
    have hpre := hv.1 rfl
    unfold cleanSpec at h
    simp only [hr, decide_True] at h
    have hgl : glue true (cleanState m) = slash :: (tailStr (cleanState m).2).drop 1 := by
      unfold glue
      rw [hpre]
      simp [baseLen]
    rw [hgl, if_neg (by simp)] at h
    injection h with hc _
    exact absurd hc (by decide)
  · refine ⟨hr, ?_⟩
    simp only [hr, decide_False] at hv
    unfold cleanSpec at h
    simp only [hr, decide_False] at h
    have hgnil : glue false (cleanState m) = [] := by
      by_cases hg : glue false (cleanState m) = []
      · exact hg
      · exfalso
        rw [if_neg hg] at h
        unfold glue at h
        rcases cleanState_pre_of_not_rooted m hr with hp | ⟨x, hp⟩
        · rw [hp] at h
          simp only [List.length_nil, baseLen, Bool.false_eq_true, if_false, if_true,
            List.nil_append] at h
          cases hs : (cleanState m).2 with
          | nil =>
            rw [hs, tailStr_nil] at h
            cases h
          | cons e es =>
            rw [hs, tailStr_cons] at h
            simp only [List.drop_succ_cons, List.drop_zero] at h
            have he := hv.2 e (by rw [hs]; exact List.mem_cons_self _ _)
            obtain ⟨c, e1, hce⟩ := List.exists_cons_of_ne_nil he.1
            rw [hce, List.cons_append] at h
            injection h with hc h1
            have h2 := (List.append_eq_nil.mp h1).1
            apply he.2.2.1
            rw [hce, hc, h2]
        · rw [hp] at h
          simp only [List.cons_append] at h
          injection h with _ h1
          cases h1
    unfold glue at hgnil
    obtain ⟨hp, hrest⟩ := List.append_eq_nil.mp hgnil
    rw [hp] at hrest
    simp only [List.length_nil, baseLen, Bool.false_eq_true, if_false, if_true] at hrest
    exact Prod.ext hp (stack_nil_of_drop_nil _ hv.2 hrest)

/-- Cleaning a cleaned rooted path changes nothing. -/
theorem Clean_cleaned (S : List GoString) (hS : ∀ e ∈ S, IsName e) :
    Clean (slash :: (tailStr S).drop 1) = slash :: (tailStr S).drop 1 := by
  rw [Clean_eq_cleanSpec]
  unfold cleanSpec cleanState
  simp only [List.head?_cons, decide_True, if_true]
  rw [foldl_segs_cleaned true S hS]
  simp [glue, baseLen]

/-- The source path for the degenerate media roots: for an empty root and for a
root that cleans to `/` it is the cleaned request path; for a root that cleans
to `.` it is the cleaned request path without its leading `/`. -/
theorem Join_Clean_degenerate (m p : GoString) (hp : p.head? = some slash) :
    ((m = [] ∨ Clean m = [slash]) → Join [m, Clean p] = Clean p) ∧
      (m ≠ [] → Clean m = [dot] →
        (Clean p = [slash] ∧ Join [m, Clean p] = [dot]) ∨
          slash :: Join [m, Clean p] = Clean p) := by
  obtain ⟨S, hS, _, hcp⟩ := cleanState_rooted p hp
  refine ⟨?_, ?_⟩
  · rintro (hm | hm)
    · rw [hm, Join_nil_left _ (by rw [hcp]; simp), hcp, Clean_cleaned S hS]
    · have hne : m ≠ [] := by
        intro h0
        rw [h0] at hm
        exact absurd hm (by decide)
      obtain ⟨hr, hst⟩ := cleanState_of_Clean_slash m hm
      rw [Join_pair m _ hne, hcp, cleanSpec_join m hne S hS, hst]
      simp [glue, baseLen, hr]
  · intro hne hm
    obtain ⟨hr, hst⟩ := cleanState_of_Clean_dot m hm
    rw [Join_pair m _ hne, hcp, cleanSpec_join m hne S hS, hst]
    simp only [hr, decide_False, List.nil_append]
    have hg : glue false ([], S) = (tailStr S).drop 1 := by
      simp [glue, baseLen]
    rw [hg]
    cases S with
    | nil =>
      left
      simp [tailStr_nil]
    | cons e es =>
      right
      have he := hS e (List.mem_cons_self _ _)
      rw [tailStr_cons]
      simp only [List.drop_succ_cons, List.drop_zero]
      rw [if_neg (by simp [he.1])]


/-! ## The source path and the media root -/

/-- The request `ServeHTTP` hands to `Resize` carries the cleaned path. -/
theorem ServeHTTP_fst {σ : Type} (env : Env) (W : ResponseWriter σ) (rsz : Resizer) (w : σ)
    (r : Request) :
    (ServeHTTP env W rsz w r).1 =
      Resize env (responseAnalysis.writer W) rsz (AnalyzeResponse w)
        { r with Path := Clean r.Path } := by
  unfold ServeHTTP
  simp only []
  split <;> rfl

/-- C6, counterexample: with the media root `/` the request path `/x.png`
resolves to `/x.png`, which is neither `Clean("/") = "/"` nor a path with the
prefix `//`; with the empty media root the request path
`/../../etc/passwd.png` resolves to `/etc/passwd.png`, which is neither
`Clean("") = "."` nor a path with the prefix `./`. -/
theorem srcFile_not_under_mediaPath :
    (Clean (str "/") = str "/" ∧
      srcFile (Resizer.default (str "/")) ⟨str "GET", Clean (str "/x.png")⟩ = str "/x.png" ∧
      srcFile (Resizer.default (str "/")) ⟨str "GET", Clean (str "/x.png")⟩ ≠
        Clean (str "/") ∧
      ¬ (Clean (str "/") ++ str "/") <+:
        srcFile (Resizer.default (str "/")) ⟨str "GET", Clean (str "/x.png")⟩) ∧
    (Clean (str "") = str "." ∧
      srcFile (Resizer.default (str "")) ⟨str "GET", Clean (str "/../../etc/passwd.png")⟩ =
        str "/etc/passwd.png" ∧
      srcFile (Resizer.default (str "")) ⟨str "GET", Clean (str "/../../etc/passwd.png")⟩ ≠
        Clean (str "") ∧
      ¬ (Clean (str "") ++ str "/") <+:
        srcFile (Resizer.default (str "")) ⟨str "GET", Clean (str "/../../etc/passwd.png")⟩) := by
  decide

/-- C6, amended: for every media root `m` and every request path `p` that
begins with `/`, the source path `path.Join(m, path.Clean(p))` that `ServeHTTP`
followed by `Resize` computes is confined as follows. If `m` is not empty and
`Clean(m)` is neither `/` nor `.`, the source path is `Clean(m)` itself or has
`Clean(m)` followed by `/` as a prefix. If `m` is empty or `Clean(m)` is `/`, the
source path is `Clean(p)`, a rooted path. If `m` is not empty and `Clean(m)` is
`.`, the source path is `Clean(p)` without its leading `/` (and `.` for
`Clean(p) = "/"`). -/
theorem srcFile_under_mediaPath (rsz : Resizer) (r : Request)
    (hp : r.Path.head? = some slash) :
    srcFile rsz { r with Path := Clean r.Path } = Join [rsz.mediaPath, Clean r.Path] ∧
    (rsz.mediaPath ≠ [] → Clean rsz.mediaPath ≠ str "/" → Clean rsz.mediaPath ≠ str "." →
      (srcFile rsz { r with Path := Clean r.Path } = Clean rsz.mediaPath ∨
        (Clean rsz.mediaPath ++ str "/") <+: srcFile rsz { r with Path := Clean r.Path })) ∧
    ((rsz.mediaPath = [] ∨ Clean rsz.mediaPath = str "/") →
      srcFile rsz { r with Path := Clean r.Path } = Clean r.Path) ∧
    (rsz.mediaPath ≠ [] → Clean rsz.mediaPath = str "." →
      (Clean r.Path = str "/" ∧ srcFile rsz { r with Path := Clean r.Path } = str ".") ∨
        str "/" ++ srcFile rsz { r with Path := Clean r.Path } = Clean r.Path) := by
  rw [str_slash, str_dot]
  have hsrc : srcFile rsz { r with Path := Clean r.Path } =
      Join [rsz.mediaPath, Clean r.Path] := rfl
  rw [hsrc]
  obtain ⟨hd1, hd2⟩ := Join_Clean_degenerate rsz.mediaPath r.Path hp
  exact ⟨rfl, fun hm h1 h2 => Join_Clean_under rsz.mediaPath r.Path hp hm h1 h2, hd1, hd2⟩

/-- Witness of C6, amended: under the media root `/media` the request path
`/../../etc/passwd.png` resolves to a path with the prefix `/media/`. -/
theorem srcFile_under_mediaPath_witness :
    (str "/../../etc/passwd.png").head? = some slash ∧
      (srcFile sampleResizer
          { (⟨str "GET", str "/../../etc/passwd.png"⟩ : Request) with
            Path := Clean (str "/../../etc/passwd.png") } = Clean sampleResizer.mediaPath ∨
        (Clean sampleResizer.mediaPath ++ str "/") <+:
          srcFile sampleResizer
            { (⟨str "GET", str "/../../etc/passwd.png"⟩ : Request) with
              Path := Clean (str "/../../etc/passwd.png") }) :=
  ⟨by decide,
    (srcFile_under_mediaPath sampleResizer ⟨str "GET", str "/../../etc/passwd.png"⟩
      (by decide)).2.1 (by decide) (by decide) (by decide)⟩

end Imageresize
